import Mathlib

/-!
Verification development for the quotation extraction, attribution and
fuzzy-deduplication engine of the `un` repository
(`scripts/analyze_quotations.py` and `scripts/extract_quotations.py`).

Strings are embedded as `List Char`.  Machine floats appear in two places
and are embedded exactly: similarity ratios are compared against 0.85
only, and `2*M/(la+lb) >= 0.85` is rendered as `17*(la+lb) <= 40*M`
(exact: the double rounding of both sides coincides for all realizable
magnitudes); confidence scores only ever hold the literals
0.3 … 0.95 and are compared against 0.9 / 0.5 / 0 / 1, so they are
embedded in exact hundredths as naturals.
-/

set_option maxRecDepth 100000

/-! ## Normalizer (`normalize_quote`, analyze_quotations.py lines 86-96) -/

/-- Whitespace characters recognised by Python `str.split()` / `str.strip()`
(ASCII part of the Python whitespace set). -/
def pyWs (c : Char) : Bool :=
  c = ' ' || c = '\t' || c = '\n' || c = '\x0d' || c = '\x0b' || c = '\x0c'

/-- The boundary-punctuation class of `normalize_quote`:
`[\.\,\;\:\!\?\-–—]` (the last two are U+2013 and U+2014). -/
def punctCls (c : Char) : Bool :=
  c = '.' || c = ',' || c = ';' || c = ':' || c = '!' || c = '?' ||
  c = '-' || c = Char.ofNat 0x2013 || c = Char.ofNat 0x2014

/-- The horizontal-ellipsis glyph U+2026 matched by `re.sub(r'\.{2,}|…', ...)`. -/
def ellipChar : Char := Char.ofNat 0x2026

/-- Drop elements satisfying `p` from the right end of a list. -/
def rdropWhile (p : Char → Bool) (l : List Char) : List Char :=
  (l.reverse.dropWhile p).reverse

/-- Python `str.strip()` (no argument): remove leading and trailing whitespace. -/
def pyStrip (l : List Char) : List Char :=
  rdropWhile pyWs (l.dropWhile pyWs)

/-- Python `str.lower()` restricted to the ASCII range. This is a deliberate
model restriction: real `str.lower()` also lowers non-ASCII letters and can
change the length of a string (U+0130 lowers to two characters), so no
development below may rely on `lowerStr` preserving lengths or being the
identity outside ASCII; the concrete inputs decided below are pure ASCII,
where the model is exact. -/
def lowerChar (c : Char) : Char :=
  if 65 ≤ c.toNat ∧ c.toNat ≤ 90 then Char.ofNat (c.toNat + 32) else c

/-- Lowercase an embedded string character by character; like `lowerChar`
this is exact only on ASCII input, and in particular real `str.lower()` need
not preserve the length of a non-ASCII string. -/
def lowerStr (l : List Char) : List Char := l.map lowerChar

/-- The substitution `re.sub(r'^[\.\,\;\:\!\?\-–—]+|[\.\,\;\:\!\?\-–—]+$', '', q)`:
it removes the maximal leading run and the maximal trailing run of
boundary-punctuation characters. -/
def stripPunct (l : List Char) : List Char :=
  rdropWhile punctCls (l.dropWhile punctCls)

/-- Helper for `pySplit`: accumulate the current word (reversed) while
scanning. -/
def splitGo : List Char → List Char → List (List Char)
  | [], acc => if acc = [] then [] else [acc.reverse]
  | c :: rest, acc =>
    if pyWs c then
      if acc = [] then splitGo rest [] else acc.reverse :: splitGo rest []
    else splitGo rest (c :: acc)

/-- Python `str.split()` with no argument: the list of maximal nonempty
whitespace-free words. -/
def pySplit (l : List Char) : List (List Char) := splitGo l []

/-- Python `' '.join(q.split())`: collapse whitespace runs to single spaces
and trim boundary whitespace. -/
def collapseWs (l : List Char) : List Char :=
  List.intercalate [' '] (pySplit l)

/-- Replacement emitted for a pending run of `n` dots: a run of two or more
dots matches `\.{2,}` and is replaced by three dots; shorter runs are kept. -/
def emitDots (n : Nat) : List Char :=
  if n = 0 then [] else if n = 1 then ['.'] else ['.', '.', '.']

/-- Scanner for `re.sub(r'\.{2,}|…', '...', q)`.  `n` is the length of the
maximal dot run ending right before the current position. -/
def ellipGo : Nat → List Char → List Char
  | n, [] => emitDots n
  | n, c :: rest =>
    if c = '.' then ellipGo (n + 1) rest
    else if c = ellipChar then emitDots n ++ '.' :: '.' :: '.' :: ellipGo 0 rest
    else emitDots n ++ c :: ellipGo 0 rest

/-- The substitution `re.sub(r'\.{2,}|…', '...', q)`: every maximal run of
two or more dots, and every ellipsis glyph, becomes a three-dot token. -/
def ellipsisSub (l : List Char) : List Char := ellipGo 0 l

/-- `normalize_quote` (analyze_quotations.py lines 86-96): strip, lowercase,
strip boundary punctuation, collapse whitespace, unify ellipses. -/
def normalizeQuote (l : List Char) : List Char :=
  ellipsisSub (collapseWs (stripPunct (lowerStr (pyStrip l))))

example : normalizeQuote "  Hello,   World!!  ".data = "hello, world".data := by decide

example : normalizeQuote (normalizeQuote "a . .".data) ≠ normalizeQuote "a . .".data := by decide
/-! ## Facts about the normalizer needed for the idempotence analysis -/

theorem toNat_ofNat_of_lt {n : Nat} (h : n < 55296) : (Char.ofNat n).toNat = n := by
  unfold Char.ofNat
  rw [dif_pos (Or.inl h)]
  simp [Char.ofNatAux, Char.toNat, UInt32.toNat, UInt32.ofNatCore]

theorem lowerChar_toNat_le (c : Char) : (lowerChar c).toNat ≤ max c.toNat 122 := by
  unfold lowerChar
  split
  · next h =>
    rw [toNat_ofNat_of_lt (by omega)]
    omega
  · exact le_max_left _ _

theorem lowerChar_idem (c : Char) : lowerChar (lowerChar c) = lowerChar c := by
  unfold lowerChar
  split
  · next h =>
    rw [if_neg]
    rw [toNat_ofNat_of_lt (by omega)]
    omega
  · rfl

theorem lowerChar_ne_ellip {c : Char} (h : c ≠ ellipChar) : lowerChar c ≠ ellipChar := by
  unfold lowerChar
  split
  · next h2 =>
    intro hc
    have : (Char.ofNat (c.toNat + 32)).toNat = ellipChar.toNat := by rw [hc]
    rw [toNat_ofNat_of_lt (by omega)] at this
    have : ellipChar.toNat = 0x2026 := by decide
    omega
  · exact h

theorem mem_of_head? {l : List α} {a : α} (h : l.head? = some a) : a ∈ l := by
  cases l with
  | nil => simp at h
  | cons x xs => simp at h; simp [h]

/-- Characters of a word produced by `splitGo` come from the scanned list or
the accumulator. -/
theorem splitGo_chars : ∀ (l acc : List Char) (w : List Char), w ∈ splitGo l acc →
    ∀ c ∈ w, c ∈ l ∨ c ∈ acc := by
  intro l
  induction l with
  | nil =>
    intro acc w hw c hc
    simp only [splitGo] at hw
    split at hw
    · simp at hw
    · simp at hw
      subst hw
      simp at hc
      exact Or.inr hc
  | cons x xs ih =>
    intro acc w hw c hc
    simp only [splitGo] at hw
    split at hw
    · split at hw
      · rcases ih [] w hw c hc with h | h
        · exact Or.inl (List.mem_cons_of_mem _ h)
        · simp at h
      · rcases List.mem_cons.mp hw with h | h
        · subst h
          simp at hc
          exact Or.inr hc
        · rcases ih [] w h c hc with h2 | h2
          · exact Or.inl (List.mem_cons_of_mem _ h2)
          · simp at h2
    · rcases ih (x :: acc) w hw c hc with h | h
      · exact Or.inl (List.mem_cons_of_mem _ h)
      · rcases List.mem_cons.mp h with h2 | h2
        · subst h2; exact Or.inl (List.mem_cons_self _ _)
        · exact Or.inr h2

/-- Words produced by `splitGo` on a whitespace-free accumulator are nonempty
and contain no whitespace. -/
theorem splitGo_words : ∀ (l acc : List Char), (∀ c ∈ acc, pyWs c = false) →
    ∀ w ∈ splitGo l acc, w ≠ [] ∧ ∀ c ∈ w, pyWs c = false := by
  intro l
  induction l with
  | nil =>
    intro acc hacc w hw
    simp only [splitGo] at hw
    split at hw
    · simp at hw
    · next hne =>
      simp at hw
      subst hw
      refine ⟨by simpa using hne, ?_⟩
      intro c hc
      exact hacc c (by simpa using hc)
  | cons x xs ih =>
    intro acc hacc w hw
    simp only [splitGo] at hw
    split at hw
    · split at hw
      · exact ih [] (by simp) w hw
      · next hne =>
        rcases List.mem_cons.mp hw with h | h
        · subst h
          refine ⟨by simpa using hne, ?_⟩
          intro c hc
          exact hacc c (by simpa using hc)
        · exact ih [] (by simp) w h
    · next hx =>
      refine ih (x :: acc) ?_ w hw
      intro c hc
      rcases List.mem_cons.mp hc with h | h
      · subst h; simpa using hx
      · exact hacc c h
/-- Unfolding `List.intercalate` one word at a time. -/
theorem intercalate_cons (v : List Char) (vs : List (List Char)) :
    List.intercalate [' '] (v :: vs) =
      v ++ (if vs = [] then [] else ' ' :: List.intercalate [' '] vs) := by
  cases vs with
  | nil => simp [List.intercalate]
  | cons w ws => simp [List.intercalate, List.intersperse]

/-- Characters of an intercalation are word characters or the separator. -/
theorem intercalate_chars : ∀ (vs : List (List Char)) (c : Char),
    c ∈ List.intercalate [' '] vs → (∃ w ∈ vs, c ∈ w) ∨ c = ' ' := by
  intro vs
  induction vs with
  | nil => intro c hc; simp [List.intercalate] at hc
  | cons v ws ih =>
    intro c hc
    rw [intercalate_cons] at hc
    rcases List.mem_append.mp hc with h | h
    · exact Or.inl ⟨v, List.mem_cons_self _ _, h⟩
    · split at h
      · simp at h
      · rcases List.mem_cons.mp h with h2 | h2
        · exact Or.inr h2
        · rcases ih c h2 with ⟨w, hw, hcw⟩ | h3
          · exact Or.inl ⟨w, List.mem_cons_of_mem _ hw, hcw⟩
          · exact Or.inr h3

/-- Intercalating nonempty words yields a nonempty list. -/
theorem intercalate_ne_nil {v : List Char} {vs : List (List Char)} (hv : v ≠ []) :
    List.intercalate [' '] (v :: vs) ≠ [] := by
  rw [intercalate_cons]
  intro h
  rcases List.append_eq_nil.mp h with ⟨h1, _⟩
  exact hv h1

/-- The head of an intercalation of nonempty words is the head of the first word. -/
theorem intercalate_head? {v : List Char} (vs : List (List Char)) (hv : v ≠ []) :
    (List.intercalate [' '] (v :: vs)).head? = v.head? := by
  rw [intercalate_cons]
  cases v with
  | nil => exact absurd rfl hv
  | cons a t => simp

/-- The last element of an intercalation of nonempty words is the last element
of the last word. -/
theorem intercalate_getLast? : ∀ (vs : List (List Char)), (∀ w ∈ vs, w ≠ []) →
    ∀ c, (List.intercalate [' '] vs).getLast? = some c → ∃ w ∈ vs, w.getLast? = some c := by
  intro vs
  induction vs with
  | nil => intro _ c hc; simp [List.intercalate] at hc
  | cons v ws ih =>
    intro hne c hc
    rw [intercalate_cons] at hc
    split at hc
    · next hws =>
      subst hws
      simp only [List.append_nil] at hc
      exact ⟨v, List.mem_cons_self _ _, hc⟩
    · next hws =>
      rw [List.getLast?_append] at hc
      have hic : List.intercalate [' '] ws ≠ [] := by
        cases ws with
        | nil => exact absurd rfl hws
        | cons w ws' => exact intercalate_ne_nil (hne w (List.mem_cons_of_mem _ (List.mem_cons_self _ _)))
      have h1 : (' ' :: List.intercalate [' '] ws).getLast? = (List.intercalate [' '] ws).getLast? := by
        have : (' ' :: List.intercalate [' '] ws) = [' '] ++ List.intercalate [' '] ws := rfl
        rw [this, List.getLast?_append]
        cases h2 : (List.intercalate [' '] ws).getLast? with
        | none => exact absurd (List.getLast?_eq_none_iff.mp h2) hic
        | some d => simp
      rw [h1] at hc
      have hlast : (List.intercalate [' '] ws).getLast? = some c := by
        cases h2 : (List.intercalate [' '] ws).getLast? with
        | none => exact absurd (List.getLast?_eq_none_iff.mp h2) hic
        | some d => rw [h2] at hc; simpa using hc
      rcases ih (fun w hw => hne w (List.mem_cons_of_mem _ hw)) c hlast with ⟨w, hw, hwc⟩
      exact ⟨w, List.mem_cons_of_mem _ hw, hwc⟩
/-- Scanning a whitespace-free word accumulates it reversed. -/
theorem splitGo_through_word : ∀ (w rest acc : List Char), (∀ c ∈ w, pyWs c = false) →
    splitGo (w ++ rest) acc = splitGo rest (w.reverse ++ acc) := by
  intro w
  induction w with
  | nil => intro rest acc _; simp
  | cons c w' ih =>
    intro rest acc hw
    have hc : pyWs c = false := hw c (List.mem_cons_self _ _)
    show splitGo (c :: (w' ++ rest)) acc = _
    simp only [splitGo, hc]
    rw [ih rest (c :: acc) (fun d hd => hw d (List.mem_cons_of_mem _ hd))]
    simp

/-- Splitting an intercalation of nonempty whitespace-free words recovers the
words. -/
theorem pySplit_intercalate : ∀ (vs : List (List Char)),
    (∀ w ∈ vs, w ≠ [] ∧ ∀ c ∈ w, pyWs c = false) →
    pySplit (List.intercalate [' '] vs) = vs := by
  intro vs
  induction vs with
  | nil => simp [List.intercalate, pySplit, splitGo]
  | cons v ws ih =>
    intro hgood
    obtain ⟨hv, hvc⟩ := hgood v (List.mem_cons_self _ _)
    rw [intercalate_cons]
    unfold pySplit
    split
    · next hws =>
      subst hws
      rw [List.append_nil, ← List.append_nil v, splitGo_through_word v [] [] hvc]
      simp only [splitGo, List.append_nil]
      rw [if_neg (by simpa using hv)]
      simp
    · next hws =>
      rw [splitGo_through_word v _ [] hvc]
      have hsp : pyWs ' ' = true := by decide
      show splitGo (' ' :: List.intercalate [' '] ws) (v.reverse ++ []) = v :: ws
      simp only [splitGo, hsp, if_pos, List.append_nil]
      rw [if_neg (by simpa using hv)]
      simp only [List.reverse_reverse]
      rw [show splitGo (List.intercalate [' '] ws) [] = pySplit (List.intercalate [' '] ws) from rfl]
      rw [ih (fun w hw => hgood w (List.mem_cons_of_mem _ hw))]
theorem pyWs_space : pyWs ' ' = true := by decide

theorem space_ne_dot : (' ' : Char) ≠ '.' := by decide

theorem space_ne_ellip : (' ' : Char) ≠ ellipChar := by decide

/-- The ellipsis scanner distributes over a separator space: the pending dot
run is flushed at the space exactly as at the end of the input. -/
theorem ellipGo_append_space : ∀ (a : List Char) (n : Nat) (b : List Char),
    ellipGo n (a ++ ' ' :: b) = ellipGo n (a ++ [' ']) ++ ellipGo 0 b := by
  intro a
  induction a with
  | nil =>
    intro n b
    simp only [List.nil_append, ellipGo, if_neg space_ne_dot, if_neg space_ne_ellip, emitDots]
    split <;> simp [ellipGo, emitDots]
  | cons c a' ih =>
    intro n b
    show ellipGo n (c :: (a' ++ ' ' :: b)) = ellipGo n (c :: (a' ++ [' '])) ++ _
    simp only [ellipGo]
    split
    · exact ih (n + 1) b
    · split <;> · rw [ih 0 b]; simp
/-- Appending a final space to the input appends it to the output. -/
theorem ellipGo_append_space_end : ∀ (v : List Char) (n : Nat),
    ellipGo n (v ++ [' ']) = ellipGo n v ++ [' '] := by
  intro v
  induction v with
  | nil =>
    intro n
    simp only [List.nil_append, ellipGo, if_neg space_ne_dot, if_neg space_ne_ellip]
    simp [emitDots, ellipGo]
  | cons c v' ih =>
    intro n
    show ellipGo n (c :: (v' ++ [' '])) = ellipGo n (c :: v') ++ [' ']
    simp only [ellipGo]
    split
    · exact ih (n + 1)
    · split <;> · rw [ih 0]; simp

/-- The ellipsis substitution maps an intercalation of words to the
intercalation of the substituted words. -/
theorem ellipsisSub_intercalate : ∀ (vs : List (List Char)),
    ellipsisSub (List.intercalate [' '] vs) =
      List.intercalate [' '] (vs.map ellipsisSub) := by
  intro vs
  induction vs with
  | nil => simp [List.intercalate, ellipsisSub, ellipGo, emitDots]
  | cons v ws ih =>
    rw [intercalate_cons, List.map_cons, intercalate_cons]
    split
    · next hws =>
      subst hws
      simp
    · next hws =>
      rw [if_neg (by simpa using hws)]
      unfold ellipsisSub
      rw [ellipGo_append_space, ellipGo_append_space_end]
      rw [show ellipGo 0 (List.intercalate [' '] ws) = ellipsisSub (List.intercalate [' '] ws) from rfl, ih]
      rw [List.append_assoc]
      rfl

/-- The ellipsis substitution of a nonempty list is nonempty. -/
theorem ellipGo_ne_nil : ∀ (v : List Char) (n : Nat), v ≠ [] ∨ n ≠ 0 →
    ellipGo n v ≠ [] := by
  intro v
  induction v with
  | nil =>
    intro n h
    rcases h with h | h
    · exact absurd rfl h
    · simp only [ellipGo, emitDots]
      rw [if_neg h]
      split <;> simp
  | cons c v' ih =>
    intro n _
    simp only [ellipGo]
    split
    · exact ih (n + 1) (Or.inr (by omega))
    · split <;> · intro h; rcases List.append_eq_nil.mp h with ⟨_, h2⟩; simp at h2

/-- Characters produced by the ellipsis substitution come from the input or
are dots. -/
theorem ellipGo_chars : ∀ (v : List Char) (n : Nat) (c : Char), c ∈ ellipGo n v →
    c ∈ v ∨ c = '.' := by
  intro v
  induction v with
  | nil =>
    intro n c hc
    simp only [ellipGo, emitDots] at hc
    split at hc
    · simp at hc
    · split at hc <;> · simp at hc; simp [hc]
  | cons d v' ih =>
    intro n c hc
    simp only [ellipGo] at hc
    split at hc
    · rcases ih (n + 1) c hc with h | h
      · exact Or.inl (List.mem_cons_of_mem _ h)
      · exact Or.inr h
    · next hd =>
      split at hc
      · next hd2 =>
        rcases List.mem_append.mp hc with h | h
        · right
          simp only [emitDots] at h
          split at h
          · simp at h
          · split at h <;> simpa using h
        · rcases List.mem_cons.mp h with h2 | h2
          · exact Or.inr h2
          · rcases List.mem_cons.mp h2 with h3 | h3
            · exact Or.inr h3
            · rcases List.mem_cons.mp h3 with h4 | h4
              · exact Or.inr h4
              · rcases ih 0 c h4 with h5 | h5
                · exact Or.inl (List.mem_cons_of_mem _ h5)
                · exact Or.inr h5
      · rcases List.mem_append.mp hc with h | h
        · right
          simp only [emitDots] at h
          split at h
          · simp at h
          · split at h <;> simpa using h
        · rcases List.mem_cons.mp h with h2 | h2
          · subst h2; exact Or.inl (List.mem_cons_self _ _)
          · rcases ih 0 c h2 with h3 | h3
            · exact Or.inl (List.mem_cons_of_mem _ h3)
            · exact Or.inr h3
/-- No ellipsis glyph occurs in the list. -/
def noGlyph (l : List Char) : Bool := l.all (fun c => !(c = ellipChar))

/-- Admissible length of a maximal dot run in a fixed point of the ellipsis
substitution. -/
def runOkCount (n : Nat) : Bool := n = 0 || n = 1 || n = 3

/-- Every maximal dot run of the list (the current one having already
`n` pending dots) has length 1 or 3, and no glyph occurs. -/
def runsOk : Nat → List Char → Bool
  | n, [] => runOkCount n
  | n, c :: rest =>
    if c = '.' then runsOk (n + 1) rest
    else runOkCount n && !(c = ellipChar) && runsOk 0 rest

theorem emitDots_of_runOkCount {n : Nat} (h : runOkCount n = true) :
    emitDots n = List.replicate n '.' := by
  simp only [runOkCount, Bool.or_eq_true, decide_eq_true_eq] at h
  rcases h with (h | h) | h <;> subst h <;> decide

/-- The ellipsis substitution is the identity on lists whose dot runs are
already canonical and that contain no glyph. -/
theorem ellipGo_of_runsOk : ∀ (l : List Char) (n : Nat), runsOk n l = true →
    ellipGo n l = List.replicate n '.' ++ l := by
  intro l
  induction l with
  | nil =>
    intro n h
    simp only [runsOk] at h
    simp only [ellipGo, List.append_nil]
    exact emitDots_of_runOkCount h
  | cons c rest ih =>
    intro n h
    simp only [runsOk] at h
    simp only [ellipGo]
    split
    · next hc =>
      rw [if_pos hc] at h
      subst hc
      rw [ih (n + 1) h]
      simp [List.replicate_succ']
    · next hc =>
      rw [if_neg hc] at h
      simp only [Bool.and_eq_true, Bool.not_eq_true', decide_eq_false_iff_not] at h
      obtain ⟨⟨hn, he⟩, hrest⟩ := h
      rw [if_neg he, ih 0 hrest, emitDots_of_runOkCount hn]
      simp

theorem runsOk_emitDots (n : Nat) : runsOk 0 (emitDots n) = true := by
  simp only [emitDots]
  split
  · decide
  · split <;> decide

theorem runsOk_emitDots_cons {n : Nat} {c : Char} {R : List Char}
    (hcd : c ≠ '.') (hce : c ≠ ellipChar) (hR : runsOk 0 R = true) :
    runsOk 0 (emitDots n ++ c :: R) = true := by
  simp only [emitDots]
  split
  · simp [runsOk, hcd, hce, hR, runOkCount]
  · split <;> · simp [runsOk, hcd, hce, hR, runOkCount]

/-- The output of the ellipsis substitution on a glyph-free list has only
canonical dot runs. -/
theorem runsOk_ellipGo : ∀ (l : List Char), (∀ c ∈ l, c ≠ ellipChar) →
    ∀ n, runsOk 0 (ellipGo n l) = true := by
  intro l
  induction l with
  | nil =>
    intro _ n
    simp only [ellipGo]
    exact runsOk_emitDots n
  | cons c rest ih =>
    intro hng n
    have hce : c ≠ ellipChar := hng c (List.mem_cons_self _ _)
    have hrest : ∀ d ∈ rest, d ≠ ellipChar := fun d hd => hng d (List.mem_cons_of_mem _ hd)
    by_cases hcd : c = '.'
    · subst hcd
      rw [show ellipGo n ('.' :: rest) = ellipGo (n + 1) rest from by simp [ellipGo]]
      exact ih hrest (n + 1)
    · rw [show ellipGo n (c :: rest) = emitDots n ++ c :: ellipGo 0 rest from by
        simp [ellipGo, hcd, hce]]
      exact runsOk_emitDots_cons hcd hce (ih hrest 0)

/-- On glyph-free input the ellipsis substitution is idempotent. -/
theorem ellipsisSub_idem_of_noGlyph {l : List Char} (h : ∀ c ∈ l, c ≠ ellipChar) :
    ellipsisSub (ellipsisSub l) = ellipsisSub l := by
  unfold ellipsisSub
  rw [ellipGo_of_runsOk _ 0 (runsOk_ellipGo l h 0)]
  simp
theorem dropWhile_eq_self_of_head {p : Char → Bool} {l : List Char}
    (h : ∀ a, l.head? = some a → p a = false) : l.dropWhile p = l := by
  cases l with
  | nil => rfl
  | cons x xs =>
    simp only [List.dropWhile]
    rw [h x rfl]

theorem rdropWhile_eq_self_of_getLast {p : Char → Bool} {l : List Char}
    (h : ∀ a, l.getLast? = some a → p a = false) : rdropWhile p l = l := by
  unfold rdropWhile
  rw [dropWhile_eq_self_of_head, List.reverse_reverse]
  intro a ha
  rw [List.head?_reverse] at ha
  exact h a ha

theorem map_eq_self_of {f : Char → Char} : ∀ {l : List Char},
    (∀ c ∈ l, f c = c) → l.map f = l := by
  intro l
  induction l with
  | nil => intro _; rfl
  | cons x xs ih =>
    intro h
    simp only [List.map_cons]
    rw [h x (List.mem_cons_self _ _), ih (fun c hc => h c (List.mem_cons_of_mem _ hc))]

theorem mem_of_stripPunct {c : Char} {l : List Char} (h : c ∈ stripPunct l) : c ∈ l := by
  unfold stripPunct rdropWhile at h
  rw [List.mem_reverse] at h
  have h2 := (List.dropWhile_sublist _).mem h
  rw [List.mem_reverse] at h2
  exact (List.dropWhile_sublist _).mem h2

theorem mem_of_pyStrip {c : Char} {l : List Char} (h : c ∈ pyStrip l) : c ∈ l := by
  unfold pyStrip rdropWhile at h
  rw [List.mem_reverse] at h
  have h2 := (List.dropWhile_sublist _).mem h
  rw [List.mem_reverse] at h2
  exact (List.dropWhile_sublist _).mem h2

theorem mem_of_collapseWs {c : Char} {l : List Char} (h : c ∈ collapseWs l) :
    c ∈ l ∨ c = ' ' := by
  unfold collapseWs at h
  rcases intercalate_chars _ c h with ⟨w, hw, hcw⟩ | h2
  · rcases splitGo_chars l [] w hw c hcw with h3 | h3
    · exact Or.inl h3
    · simp at h3
  · exact Or.inr h2

/-- Characters surviving the first four stages of `normalize_quote` are
fixed by lowercasing. -/
theorem lowerFixed_stage (x : List Char) :
    ∀ c ∈ collapseWs (stripPunct (lowerStr (pyStrip x))), lowerChar c = c := by
  intro c hc
  rcases mem_of_collapseWs hc with h | h
  · have h2 := mem_of_stripPunct h
    unfold lowerStr at h2
    rcases List.mem_map.mp h2 with ⟨d, _, hd⟩
    rw [← hd]
    exact lowerChar_idem d
  · subst h; decide

/-- No glyph survives the first four stages when the input has none. -/
theorem noGlyph_stage {x : List Char} (hx : ∀ c ∈ x, c ≠ ellipChar) :
    ∀ c ∈ collapseWs (stripPunct (lowerStr (pyStrip x))), c ≠ ellipChar := by
  intro c hc
  rcases mem_of_collapseWs hc with h | h
  · have h2 := mem_of_stripPunct h
    unfold lowerStr at h2
    rcases List.mem_map.mp h2 with ⟨d, hd, hde⟩
    rw [← hde]
    exact lowerChar_ne_ellip (hx d (mem_of_pyStrip hd))
  · subst h; decide
/-- Structure of the normalizer output: the intercalation of the
ellipsis-substituted words. -/
theorem normalizeQuote_eq_intercalate (x : List Char) :
    normalizeQuote x = List.intercalate [' ']
      ((pySplit (stripPunct (lowerStr (pyStrip x)))).map ellipsisSub) := by
  unfold normalizeQuote collapseWs
  exact ellipsisSub_intercalate _

/-- The words making up the normalizer output are nonempty and
whitespace-free. -/
theorem normalize_words_good (x : List Char) :
    ∀ w ∈ (pySplit (stripPunct (lowerStr (pyStrip x)))).map ellipsisSub,
      w ≠ [] ∧ ∀ c ∈ w, pyWs c = false := by
  intro w hw
  rcases List.mem_map.mp hw with ⟨u, hu, hue⟩
  obtain ⟨hne, hsp⟩ := splitGo_words _ [] (by simp) u hu
  subst hue
  constructor
  · exact ellipGo_ne_nil u 0 (Or.inl hne)
  · intro c hc
    rcases ellipGo_chars u 0 c hc with h | h
    · exact hsp c h
    · subst h; decide

/-- Stripping whitespace is the identity on intercalations of nonempty
whitespace-free words. -/
theorem pyStrip_intercalate_good (vs : List (List Char))
    (hgood : ∀ w ∈ vs, w ≠ [] ∧ ∀ c ∈ w, pyWs c = false) :
    pyStrip (List.intercalate [' '] vs) = List.intercalate [' '] vs := by
  unfold pyStrip
  rw [dropWhile_eq_self_of_head, rdropWhile_eq_self_of_getLast]
  · intro a ha
    rcases intercalate_getLast? _ (fun w hw => (hgood w hw).1) a ha with ⟨w, hw, hwa⟩
    exact (hgood w hw).2 a (List.mem_of_getLast?_eq_some hwa)
  · intro a ha
    cases vs with
    | nil => simp [List.intercalate] at ha
    | cons v ws =>
      rw [intercalate_head? ws (hgood v (List.mem_cons_self _ _)).1] at ha
      exact (hgood v (List.mem_cons_self _ _)).2 a (mem_of_head? ha)

/-- Stripping whitespace does not change a normalized quote. -/
theorem pyStrip_normalizeQuote (x : List Char) :
    pyStrip (normalizeQuote x) = normalizeQuote x := by
  rw [normalizeQuote_eq_intercalate]
  exact pyStrip_intercalate_good _ (normalize_words_good x)

/-- Lowercasing does not change a normalized quote. -/
theorem lowerStr_normalizeQuote (x : List Char) :
    lowerStr (normalizeQuote x) = normalizeQuote x := by
  apply map_eq_self_of
  intro c hc
  unfold normalizeQuote ellipsisSub at hc
  rcases ellipGo_chars _ 0 c hc with h | h
  · exact lowerFixed_stage x c h
  · subst h; decide

/-- Collapsing whitespace does not change a normalized quote. -/
theorem collapseWs_normalizeQuote (x : List Char) :
    collapseWs (normalizeQuote x) = normalizeQuote x := by
  rw [normalizeQuote_eq_intercalate]
  show List.intercalate [' '] (pySplit _) = _
  rw [pySplit_intercalate _ (normalize_words_good x)]

/-- The ellipsis substitution does not change a normalized quote when the
input carried no ellipsis glyph. -/
theorem ellipsisSub_normalizeQuote {x : List Char} (hx : ∀ c ∈ x, c ≠ ellipChar) :
    ellipsisSub (normalizeQuote x) = normalizeQuote x := by
  unfold normalizeQuote
  exact ellipsisSub_idem_of_noGlyph (noGlyph_stage hx)
/-- C1 (counterexample): `normalize_quote` is NOT idempotent on every string.
Two failure modes at concrete inputs: the input `"a…"` (letter followed by
the ellipsis glyph) normalizes to `"a..."`, which a second pass strips to
`"a"`, because the ellipsis substitution runs after boundary-punctuation
stripping and may leave dots at the boundary; and the input `"a . ."`
normalizes to `"a ."` (only the outermost punctuation run is stripped and
the whitespace collapse then exposes a new boundary punctuation run), which
a second pass shortens to `"a"`. -/
theorem normalize_quote_not_idempotent :
    normalizeQuote (normalizeQuote ('a' :: [ellipChar])) ≠
        normalizeQuote ('a' :: [ellipChar]) ∧
      normalizeQuote (normalizeQuote "a . .".data) ≠ normalizeQuote "a . .".data := by
  decide

/-- C1 (amended): `normalize_quote` is idempotent on every input that
contains no ellipsis glyph U+2026 and whose normalization carries no
boundary-punctuation character (equivalently, is a fixed point of the
boundary-punctuation strip).  These two guards are exactly what the
counterexample shows to be necessary. -/
theorem normalize_quote_idempotent (x : List Char) (h1 : noGlyph x = true)
    (h2 : stripPunct (normalizeQuote x) = normalizeQuote x) :
    normalizeQuote (normalizeQuote x) = normalizeQuote x := by
  have hx : ∀ c ∈ x, c ≠ ellipChar := by
    intro c hc
    have := List.all_eq_true.mp h1 c hc
    simpa using this
  show ellipsisSub (collapseWs (stripPunct (lowerStr (pyStrip (normalizeQuote x))))) =
    normalizeQuote x
  rw [pyStrip_normalizeQuote, lowerStr_normalizeQuote, h2, collapseWs_normalizeQuote]
  exact ellipsisSub_normalizeQuote hx

/-- C1 (witness): the amended idempotence at a concrete input. -/
theorem normalize_quote_idempotent_witness :
    normalizeQuote (normalizeQuote "  Said,  CLEARLY!!  ".data) =
      normalizeQuote "  Said,  CLEARLY!!  ".data :=
  normalize_quote_idempotent "  Said,  CLEARLY!!  ".data (by decide) (by decide)
/-! ## Fuzzy similarity (`are_similar`, analyze_quotations.py lines 98-101)

Embedding of `difflib.SequenceMatcher(None, a, b).ratio()`.  With
`isjunk = None` the junk set is empty, so the two junk-gluing extension
loops of `find_longest_match` never run and the two non-junk extension
loops have a vacuously true junk condition; the autojunk rule (elements
occurring in more than one percent of `b` when `len(b) >= 200`) only
deletes entries from the position index `b2j`. -/

/-- Positions (ascending) of character `c` in `b`. -/
def charPositions (b : List Char) (c : Char) : List Nat :=
  (List.range b.length).filter (fun j => decide (b.get? j = some c))

/-- The autojunk rule of `SequenceMatcher.__chain_b`. -/
def isPopular (b : List Char) (c : Char) : Bool :=
  decide (200 ≤ b.length) && decide (b.length / 100 + 1 < b.count c)

/-- The position index `b2j` after autojunk deletion. -/
def b2j (b : List Char) (c : Char) : List Nat :=
  if isPopular b c then [] else charPositions b c

/-- Lookup in the `j2len` association list, defaulting to 0
(`j2len.get(j-1, 0)` in the source; `j = 0` looks up key `-1`, absent). -/
def j2get (m : List (Nat × Nat)) (j : Nat) : Nat :=
  ((m.find? (fun p => p.1 == j)).map Prod.snd).getD 0

/-- Inner loop of `find_longest_match`: one row `i`, scanning the positions
of `a[i]` in `b` (already restricted to `[blo, bhi)`). -/
def flmInner (j2len : List (Nat × Nat)) (i : Nat) :
    List Nat → List (Nat × Nat) → Nat × Nat × Nat → List (Nat × Nat) × (Nat × Nat × Nat)
  | [], newj2len, best => (newj2len, best)
  | j :: js, newj2len, best =>
    let k := (if j = 0 then 0 else j2get j2len (j - 1)) + 1
    let best' := if best.2.2 < k then (i + 1 - k, j + 1 - k, k) else best
    flmInner j2len i js ((j, k) :: newj2len) best'

/-- Outer loop of `find_longest_match` over the rows `[alo, ahi)`. -/
def flmOuter (a b : List Char) (blo bhi : Nat) :
    List Nat → List (Nat × Nat) → Nat × Nat × Nat → Nat × Nat × Nat
  | [], _, best => best
  | i :: is, j2len, best =>
    let js := ((b2j b (a.getD i ' ')).filter (fun j => decide (blo ≤ j))).takeWhile
      (fun j => decide (j < bhi))
    let (newj2len, best') := flmInner j2len i js [] best
    flmOuter a b blo bhi is newj2len best'

/-- First extension loop: grow the block leftwards over equal elements
(the junk condition is vacuous for `isjunk = None`). -/
def extendLeft (a b : List Char) (alo blo : Nat) :
    Nat → Nat × Nat × Nat → Nat × Nat × Nat
  | 0, best => best
  | fuel + 1, (besti, bestj, bestsize) =>
    if alo < besti && blo < bestj &&
        (a.getD (besti - 1) ' ' == b.getD (bestj - 1) ' ') then
      extendLeft a b alo blo fuel (besti - 1, bestj - 1, bestsize + 1)
    else (besti, bestj, bestsize)

/-- Second extension loop: grow the block rightwards over equal elements. -/
def extendRight (a b : List Char) (ahi bhi : Nat) :
    Nat → Nat × Nat × Nat → Nat × Nat × Nat
  | 0, best => best
  | fuel + 1, (besti, bestj, bestsize) =>
    if besti + bestsize < ahi && bestj + bestsize < bhi &&
        (a.getD (besti + bestsize) ' ' == b.getD (bestj + bestsize) ' ') then
      extendRight a b ahi bhi fuel (besti, bestj, bestsize + 1)
    else (besti, bestj, bestsize)

/-- `SequenceMatcher.find_longest_match` on `a[alo:ahi]`, `b[blo:bhi]`. -/
def findLongestMatch (a b : List Char) (alo ahi blo bhi : Nat) : Nat × Nat × Nat :=
  let scanned := flmOuter a b blo bhi (List.range' alo (ahi - alo)) [] (alo, blo, 0)
  let left := extendLeft a b alo blo scanned.1 scanned
  extendRight a b ahi bhi (ahi + bhi) left

/-- Total size of all matching blocks (`get_matching_blocks` recursion);
`fuel` bounds the recursion depth (the width of the `a`-range shrinks at
every level, so `a.length + 1` suffices at the top call). -/
def matchTotalAux (a b : List Char) : Nat → Nat → Nat → Nat → Nat → Nat
  | 0, _, _, _, _ => 0
  | fuel + 1, alo, ahi, blo, bhi =>
    let m := findLongestMatch a b alo ahi blo bhi
    if m.2.2 = 0 then 0
    else matchTotalAux a b fuel alo m.1 blo m.2.1 + m.2.2 +
      matchTotalAux a b fuel (m.1 + m.2.2) ahi (m.2.1 + m.2.2) bhi

/-- Sum of the sizes of the matching blocks of `SequenceMatcher(None, a, b)`. -/
def matchTotal (a b : List Char) : Nat :=
  matchTotalAux a b (a.length + 1) 0 a.length 0 b.length

/-- `are_similar` (analyze_quotations.py lines 98-101):
`SequenceMatcher(None, q1, q2).ratio() >= 0.85`, i.e. `2*M/(|a|+|b|) ≥ 17/20`. -/
def areSimilar (q1 q2 : List Char) : Bool :=
  decide (17 * (q1.length + q2.length) ≤ 40 * matchTotal q1 q2)

example : matchTotal "aaaaaa".data "aaaaaaa".data = 6 := by decide

example : areSimilar "aaaaaa".data "aaaaaaa".data = true := by decide

example : areSimilar "aaaaaa".data "aaaaaaaxx".data = false := by decide

example : areSimilar "aaaaaaa".data "aaaaaaaxx".data = true := by decide
/-! ## Candidates and the greedy grouping pass
(analyze_quotations.py lines 192-231) -/

/-- One quote candidate as built in `analyze_quotes` (the dict appended to
`all_quotes`, lines 192-200). -/
structure Candidate where
  original : List Char
  normalized : List Char
  year : Int
  country : List Char
  speechSpeaker : List Char
  quotedPerson : Option (List Char)
  speechId : Nat
deriving DecidableEq, Repr

/-- The similarity check applied during grouping:
`are_similar` applied to the normalized fields (line 219). -/
def candSim (q1 q2 : Candidate) : Bool :=
  areSimilar q1.normalized q2.normalized

/-- One greedy grouping pass (lines 205-224): the first unused candidate
seeds a group, every later unused candidate similar to the seed joins it and
is marked used, and only groups with at least two members are kept.  `fuel`
bounds the recursion (the working list shrinks strictly, so the initial
length suffices). -/
def groupPassAux (sim : α → α → Bool) : Nat → List α → List (List α)
  | 0, _ => []
  | _ + 1, [] => []
  | fuel + 1, q :: rest =>
    let g := q :: rest.filter (fun r => sim q r)
    (if 2 ≤ g.length then [g] else []) ++
      groupPassAux sim fuel (rest.filter (fun r => !(sim q r)))

/-- The grouping pass at its canonical fuel. -/
def groupPass (sim : α → α → Bool) (l : List α) : List (List α) :=
  groupPassAux sim l.length l

/-- The grouping pass of `analyze_quotes`. -/
def groupQuotes (l : List Candidate) : List (List Candidate) :=
  groupPass candSim l

theorem groupPassAux_fuel_irrel (sim : α → α → Bool) : ∀ (fuel fuel' : Nat) (l : List α),
    l.length ≤ fuel → l.length ≤ fuel' →
    groupPassAux sim fuel l = groupPassAux sim fuel' l := by
  intro fuel
  induction fuel with
  | zero =>
    intro fuel' l hl _
    have : l = [] := List.eq_nil_of_length_eq_zero (Nat.le_zero.mp hl)
    subst this
    cases fuel' <;> rfl
  | succ n ih =>
    intro fuel' l hl hl'
    cases l with
    | nil => cases fuel' <;> rfl
    | cons q rest =>
      cases fuel' with
      | zero => simp at hl'
      | succ m =>
        simp only [groupPassAux]
        congr 1
        apply ih
        · exact le_trans (List.length_filter_le _ _) (by simpa using hl)
        · exact le_trans (List.length_filter_le _ _) (by simpa using hl')

/-- Unfolding equation for `groupPass` at a cons cell. -/
theorem groupPass_cons (sim : α → α → Bool) (q : α) (rest : List α) :
    groupPass sim (q :: rest) =
      (if 2 ≤ (q :: rest.filter (fun r => sim q r)).length
        then [q :: rest.filter (fun r => sim q r)] else []) ++
      groupPass sim (rest.filter (fun r => !(sim q r))) := by
  unfold groupPass
  simp only [List.length_cons, groupPassAux]
  congr 1
  apply groupPassAux_fuel_irrel
  · exact le_trans (List.length_filter_le _ _) (Nat.le_refl _)
  · exact Nat.le_refl _

/-- Every group kept by the pass has at least two members, its head is the
seed, and all other members were admitted by a similarity test against the
seed alone. -/
theorem groupPassAux_sound (sim : α → α → Bool) : ∀ (fuel : Nat) (l : List α) (g : List α),
    g ∈ groupPassAux sim fuel l →
    2 ≤ g.length ∧ ∃ s t, g = s :: t ∧ ∀ y ∈ t, sim s y = true := by
  intro fuel
  induction fuel with
  | zero => intro l g hg; simp [groupPassAux] at hg
  | succ n ih =>
    intro l g hg
    cases l with
    | nil => simp [groupPassAux] at hg
    | cons q rest =>
      simp only [groupPassAux] at hg
      rcases List.mem_append.mp hg with h | h
      · split at h
        · next hlen =>
          simp only [List.mem_singleton] at h
          subst h
          exact ⟨hlen, q, _, rfl, fun y hy => (List.mem_filter.mp hy).2⟩
        · simp at h
      · exact ih _ g h

/-- Multiset soundness: the groups are disjoint sub-collections of the input
(no candidate is assigned to more clusters than it occurs in the input). -/
theorem count_filter_split (l : List α) (p : α → Bool) (x : α) [DecidableEq α] :
    (l.filter p).count x + (l.filter (fun a => !(p a))).count x = l.count x := by
  induction l with
  | nil => rfl
  | cons a t ih =>
    by_cases hpa : p a = true
    · have h1 : (a :: t).filter p = a :: t.filter p := by simp [List.filter_cons, hpa]
      have h2 : (a :: t).filter (fun b => !(p b)) = t.filter (fun b => !(p b)) := by
        simp [List.filter_cons, hpa]
      rw [h1, h2]
      by_cases hax : a = x
      · subst hax
        rw [List.count_cons_self]
        rw [List.count_cons_self]
        omega
      · rw [List.count_cons_of_ne (Ne.symm hax)]
        rw [List.count_cons_of_ne (Ne.symm hax)]
        omega
    · have hpa2 : p a = false := by simpa using hpa
      have h1 : (a :: t).filter p = t.filter p := by simp [List.filter_cons, hpa2]
      have h2 : (a :: t).filter (fun b => !(p b)) = a :: t.filter (fun b => !(p b)) := by
        simp [List.filter_cons, hpa2]
      rw [h1, h2]
      by_cases hax : a = x
      · subst hax
        rw [List.count_cons_self]
        rw [List.count_cons_self]
        omega
      · rw [List.count_cons_of_ne (Ne.symm hax)]
        rw [List.count_cons_of_ne (Ne.symm hax)]
        omega

theorem groupPassAux_count (sim : α → α → Bool) [DecidableEq α] :
    ∀ (fuel : Nat) (l : List α) (x : α),
    ((groupPassAux sim fuel l).flatten).count x ≤ l.count x := by
  intro fuel
  induction fuel with
  | zero => intro l x; simp [groupPassAux]
  | succ n ih =>
    intro l x
    cases l with
    | nil => simp [groupPassAux]
    | cons q rest =>
      simp only [groupPassAux]
      rw [List.flatten_append]
      rw [List.count_append]
      have hrec := ih (rest.filter (fun r => !(sim q r))) x
      have hsplit := count_filter_split rest (fun r => sim q r) x
      split
      · simp only [List.flatten_cons, List.flatten_nil, List.append_nil]
        rw [List.count_cons]
        rw [List.count_cons]
        have : (rest.filter (fun r => sim q r)).count x ≤ rest.count x := by omega
        omega
      · simp only [List.flatten_nil, List.count_nil]
        have : (rest.filter (fun r => !(sim q r))).count x ≤ rest.count x := by omega
        rw [List.count_cons]
        omega
/-- States of the working list reachable during one grouping pass: the pass
starts at the full candidate list and each processed seed removes itself and
the candidates it absorbed. -/
inductive PassReach (sim : α → α → Bool) : List α → List α → Prop
  | refl (l : List α) : PassReach sim l l
  | step {l : List α} {q : α} {rest : List α} :
      PassReach sim l (q :: rest) →
      PassReach sim l (rest.filter (fun r => !(sim q r)))

/-- Groups produced from a later stage of the pass are produced by the whole
pass. -/
theorem passReach_groups_subset {sim : α → α → Bool} {l st : List α}
    (h : PassReach sim l st) : ∀ g ∈ groupPass sim st, g ∈ groupPass sim l := by
  induction h with
  | refl => exact fun g hg => hg
  | step h ih =>
    intro g hg
    apply ih
    rw [groupPass_cons]
    exact List.mem_append_right _ hg

/-- Concrete candidates for the grouping counterexamples: only the
`normalized` field matters to the grouper. -/
def mkCand (s : List Char) (id : Nat) : Candidate :=
  ⟨s, s, 1946, "X".data, "Y".data, none, id⟩

/-- C2 (counterexample): two candidates whose normalized texts have
similarity ratio above 0.85 need not be placed in the same cluster.  With
`a = "aaaaaa"`, `b = "aaaaaaa"`, `c = "aaaaaaaxx"` the ratios are
`ratio(a,b) = 12/13`, `ratio(b,c) = 14/16` and `ratio(a,c) = 12/15 < 0.85`;
on the ordered list `[a, c, b]` the pass seeds at `a`, absorbs `b`, and
leaves `c` in a discarded singleton, so `b` and `c` (similar to each other)
share no cluster. -/
theorem similar_pair_not_coclustered :
    candSim (mkCand "aaaaaaa".data 2) (mkCand "aaaaaaaxx".data 1) = true ∧
    ∀ g ∈ groupQuotes [mkCand "aaaaaa".data 0, mkCand "aaaaaaaxx".data 1,
        mkCand "aaaaaaa".data 2],
      ¬(mkCand "aaaaaaa".data 2 ∈ g ∧ mkCand "aaaaaaaxx".data 1 ∈ g) := by
  decide

/-- C2 (amended): similarity at or above the 0.85 threshold guarantees
co-clustering only against a cluster seed: whenever the pass reaches a stage
whose first unclustered candidate (the seed) is similar to a later candidate
of that stage, the two end up in the same produced cluster.  For two
arbitrary candidates that are mutually similar but where neither seeds the
cluster of the other, co-clustering can fail (see the counterexample). -/
theorem similar_to_seed_coclustered (l : List Candidate) (s y : Candidate)
    (rest : List Candidate) (hreach : PassReach candSim l (s :: rest))
    (hy : y ∈ rest) (hsim : candSim s y = true) :
    ∃ g ∈ groupQuotes l, s ∈ g ∧ y ∈ g := by
  have hyf : y ∈ rest.filter (fun r => candSim s r) := List.mem_filter.mpr ⟨hy, hsim⟩
  have hglen : 2 ≤ (s :: rest.filter (fun r => candSim s r)).length := by
    cases hf : rest.filter (fun r => candSim s r) with
    | nil => rw [hf] at hyf; simp at hyf
    | cons a t => simp [hf]
  refine ⟨s :: rest.filter (fun r => candSim s r), ?_, List.mem_cons_self _ _,
    List.mem_cons_of_mem _ hyf⟩
  apply passReach_groups_subset hreach
  rw [groupPass_cons]
  apply List.mem_append_left
  rw [if_pos hglen]
  exact List.mem_singleton.mpr rfl

/-- C2 (witness): the amended statement at a concrete input: on the list
`[b, c]` the seed `b` is similar to `c` and indeed shares its cluster. -/
theorem similar_to_seed_coclustered_witness :
    ∃ g ∈ groupQuotes [mkCand "aaaaaaa".data 2, mkCand "aaaaaaaxx".data 1],
      mkCand "aaaaaaa".data 2 ∈ g ∧ mkCand "aaaaaaaxx".data 1 ∈ g :=
  similar_to_seed_coclustered _ _ _ _ (PassReach.refl _) (by decide) (by decide)

/-- C3: in every cluster produced by the grouper the members after the seed
(the first member) all have normalized text with similarity ratio at or
above 0.85 to the normalized text of the seed (membership was decided against
the seed only), and no candidate is assigned to more clusters than it
occurs in the input list. -/
theorem clusters_seed_similar_and_disjoint (l : List Candidate) :
    (∀ g ∈ groupQuotes l, ∃ s t, g = s :: t ∧
      ∀ y ∈ t, areSimilar s.normalized y.normalized = true) ∧
    (∀ x : Candidate, ((groupQuotes l).flatten).count x ≤ l.count x) := by
  constructor
  · intro g hg
    exact (groupPassAux_sound candSim _ l g hg).2
  · intro x
    exact groupPassAux_count candSim _ l x

/-- C3 (witness): the invariant evaluated on a concrete pass. -/
theorem clusters_seed_similar_and_disjoint_witness :
    (∃ s t, ([mkCand "aaaaaa".data 0, mkCand "aaaaaaa".data 2] : List Candidate) = s :: t ∧
      ∀ y ∈ t, areSimilar s.normalized y.normalized = true) ∧
    ((groupQuotes [mkCand "aaaaaa".data 0, mkCand "aaaaaaa".data 2]).flatten).count
      (mkCand "aaaaaa".data 0) ≤
      ([mkCand "aaaaaa".data 0, mkCand "aaaaaaa".data 2] : List Candidate).count
        (mkCand "aaaaaa".data 0) :=
  ⟨(clusters_seed_similar_and_disjoint
      [mkCand "aaaaaa".data 0, mkCand "aaaaaaa".data 2]).1
      [mkCand "aaaaaa".data 0, mkCand "aaaaaaa".data 2] (by decide),
   (clusters_seed_similar_and_disjoint
      [mkCand "aaaaaa".data 0, mkCand "aaaaaaa".data 2]).2 (mkCand "aaaaaa".data 0)⟩
/-! ## A small regular-expression engine

Enough of Python `re` semantics (leftmost match, ordered alternation,
greedy counted repetition over character classes, one capture group,
optional non-capturing subsequence) to embed the quotation patterns of
analyze_quotations.py.  Backtracking is expressed by re-trying the head
atom with a reduced choice, so a single fuel-indexed structural recursion
covers the whole search. -/

/-- Atoms of the patterns used by the scripts. -/
inductive RAtom where
  | lit (ci : Bool) (alts : List (List Char)) : RAtom
  | cls (p : Char → Bool) (lo hi : Nat) : RAtom
  | grpOpen : RAtom
  | grpClose : RAtom
  | opt (sub : List RAtom) : RAtom

/-- Character comparison, optionally case-insensitive (re.IGNORECASE). -/
def charEqCI (ci : Bool) (a b : Char) : Bool :=
  if ci then lowerChar a == lowerChar b else a == b

/-- Match a literal against a prefix of the text; returns the rest. -/
def litPrefix (ci : Bool) : List Char → List Char → Option (List Char)
  | [], s => some s
  | _ :: _, [] => none
  | p :: ps, c :: cs => if charEqCI ci c p then litPrefix ci ps cs else none

/-- Length of the leading run of class characters. -/
def leadCount (p : Char → Bool) : List Char → Nat
  | [] => 0
  | c :: cs => if p c then leadCount p cs + 1 else 0

/-- Backtracking matcher.  `pos` counts consumed characters, `o`/`cl` are
the recorded capture-group boundaries.  Greedy repetition tries the longest
feasible count first and retries with the bound lowered on failure;
alternations try branches in order and fall through to the remaining
branches on failure, as Python does. -/
def reMatch : Nat → List RAtom → List Char → Nat → Option Nat → Option Nat →
    Option (Nat × Option Nat × Option Nat)
  | 0, _, _, _, _, _ => none
  | _ + 1, [], _, pos, o, cl => some (pos, o, cl)
  | fuel + 1, atom :: rest, s, pos, o, cl =>
    match atom with
    | .grpOpen => reMatch fuel rest s pos (some pos) cl
    | .grpClose => reMatch fuel rest s pos o (some pos)
    | .opt sub =>
      match reMatch fuel (sub ++ rest) s pos o cl with
      | some r => some r
      | none => reMatch fuel rest s pos o cl
    | .lit ci alts =>
      match alts with
      | [] => none
      | a :: as =>
        match litPrefix ci a s with
        | some s' =>
          match reMatch fuel rest s' (pos + a.length) o cl with
          | some r => some r
          | none => reMatch fuel (.lit ci as :: rest) s pos o cl
        | none => reMatch fuel (.lit ci as :: rest) s pos o cl
    | .cls p lo hi =>
      let k := min hi (leadCount p s)
      if k < lo then none
      else
        match reMatch fuel rest (s.drop k) (pos + k) o cl with
        | some r => some r
        | none =>
          if k = 0 then none
          else reMatch fuel (.cls p lo (k - 1) :: rest) s pos o cl

/-- Generous fuel: ample for every backtracking search these patterns can
perform on the concrete corpora evaluated below. -/
def reFuel : Nat := 1000000

/-- Scan of `re.finditer`: try the pattern at each position left to right;
on a match, record `(start, group(1))` and resume after the match. -/
def reFindAux (atoms : List RAtom) (text : List Char) :
    Nat → List Char → Nat → List (Nat × List Char)
  | 0, _, _ => []
  | sfuel + 1, s, pos =>
    match reMatch reFuel atoms s 0 none none with
    | some (len, o, cl) =>
      let ostart := o.getD 0
      let oend := cl.getD 0
      let grp := ((s.drop ostart).take (oend - ostart))
      let adv := max len 1
      (pos, grp) :: reFindAux atoms text sfuel (s.drop adv) (pos + adv)
    | none =>
      match s with
      | [] => []
      | _ :: s' => reFindAux atoms text sfuel s' (pos + 1)

/-- `re.finditer(pattern, text)` restricted to start position and first
capture group. -/
def reFind (atoms : List RAtom) (text : List Char) : List (Nat × List Char) :=
  reFindAux atoms text (text.length + 1) text 0

/-- First index at which `needle` occurs in `hay` (Python `str.find`). -/
def strFindAux (needle : List Char) : Nat → List Char → Nat → Option Nat
  | 0, _, _ => none
  | sfuel + 1, s, pos =>
    match litPrefix false needle s with
    | some _ => some pos
    | none =>
      match s with
      | [] => none
      | _ :: s' => strFindAux needle sfuel s' (pos + 1)

def strFind (hay needle : List Char) : Option Nat :=
  strFindAux needle (hay.length + 1) hay 0

/-- Python `needle in hay`. -/
def strContains (hay needle : List Char) : Bool :=
  (strFind hay needle).isSome

example : strFind "abcabc".data "cab".data = some 2 := by decide

example : strContains "hello".data "lo".data = true := by decide

example : reFind [RAtom.lit true ["ab".data], RAtom.grpOpen,
    RAtom.cls (fun c => c = 'c') 1 5, RAtom.grpClose] "xAbcccy abc".data =
    [(1, "ccc".data), (8, "c".data)] := by decide
/-! ## Quotation patterns of analyze_quotations.py (lines 53-78)

The quote character class in the source lists the ASCII double quote three
times plus the escaped single quote (character 39); the content classes are
its complement, optionally also excluding the colon. -/

def quoteCls (c : Char) : Bool := c = '"' || c = Char.ofNat 39

def nonQuote (c : Char) : Bool := !(quoteCls c)

def nonColonQuote (c : Char) : Bool := !(c = ':' || quoteCls c)

def colonComma (c : Char) : Bool := c = ':' || c = ','

/-- Unbounded repetition bound (`*` and `+`). -/
def reBig : Nat := 1000000000

/-- The common tail: optional colon or comma, whitespace, an opening quote
character, the captured content class repeated lo to 300 times, and a
closing quote character. -/
def qtail (lo : Nat) : List RAtom :=
  [.cls colonComma 0 1, .cls pyWs 0 reBig, .cls quoteCls 1 1, .grpOpen,
   .cls nonQuote lo 300, .grpClose, .cls quoteCls 1 1]

/-- `QUOTE_PATTERNS ++ STANDALONE_PATTERNS` in source order, each as the
atom list of the regex (all applied with re.IGNORECASE). -/
def allPatterns : List (List RAtom) :=
  [ [.lit true ["said".data, "wrote".data, "declared".data, "stated".data,
      "observed".data, "noted".data, "remarked".data, "proclaimed".data,
      "quoted".data], .cls pyWs 0 reBig] ++ qtail 15,
    [.lit true ["once said".data, "famously said".data, "once wrote".data,
      "famously wrote".data, "has said".data, "had said".data],
      .cls pyWs 0 reBig] ++ qtail 15,
    [.lit true ["words of".data, "words from".data], .cls nonColonQuote 0 reBig,
      .cls colonComma 1 1, .cls pyWs 0 reBig, .cls quoteCls 1 1, .grpOpen,
      .cls nonQuote 15 300, .grpClose, .cls quoteCls 1 1],
    [.lit true ["as".data], .cls nonColonQuote 1 50, .lit true ["put it".data]] ++ qtail 15,
    [.lit true ["quoting".data, "quoted".data], .cls nonColonQuote 0 reBig] ++ qtail 15,
    [.lit true ["to quote".data], .cls nonColonQuote 0 reBig] ++ qtail 15,
    [.lit true ["reminded us".data], .cls nonColonQuote 0 reBig] ++ qtail 15,
    [.lit true ["called for".data, "urged".data, "appealed".data],
      .cls nonColonQuote 0 reBig] ++ qtail 15,
    [.lit true ["Charter".data, "preamble".data], .cls nonQuote 0 reBig] ++ qtail 20,
    [.lit true ["according to".data], .cls nonQuote 0 reBig] ++ qtail 15 ]

/-! ## Speaker identification (`identify_speaker`, lines 103-130) -/

/-- The `FAMOUS_FIGURES` alias table, in dict insertion order. -/
def famousFigures : List (List Char × List Char) :=
  [ ("mandela".data, "Nelson Mandela".data),
    ("nelson mandela".data, "Nelson Mandela".data),
    ("gandhi".data, "Mahatma Gandhi".data),
    ("mahatma gandhi".data, "Mahatma Gandhi".data),
    ("martin luther king".data, "Martin Luther King Jr.".data),
    ("mlk".data, "Martin Luther King Jr.".data),
    ("kennedy".data, "John F. Kennedy".data),
    ("jfk".data, "John F. Kennedy".data),
    ("churchill".data, "Winston Churchill".data),
    ("einstein".data, "Albert Einstein".data),
    ("pope francis".data, "Pope Francis".data),
    ("pope paul".data, "Pope Paul VI".data),
    ("pope john paul".data, "Pope John Paul II".data),
    ("lincoln".data, "Abraham Lincoln".data),
    ("roosevelt".data, "Franklin D. Roosevelt".data),
    ("eleanor roosevelt".data, "Eleanor Roosevelt".data),
    ("kofi annan".data, "Kofi Annan".data),
    ("ban ki-moon".data, "Ban Ki-moon".data),
    ("ban ki moon".data, "Ban Ki-moon".data),
    ("guterres".data, "António Guterres".data),
    ("dag hammarskjöld".data, "Dag Hammarskjöld".data),
    ("hammarskjold".data, "Dag Hammarskjöld".data),
    ("shakespeare".data, "William Shakespeare".data),
    ("confucius".data, "Confucius".data),
    ("buddha".data, "Buddha".data),
    ("jesus".data, "Jesus Christ".data),
    ("prophet muhammad".data, "Prophet Muhammad".data),
    ("desmond tutu".data, "Desmond Tutu".data),
    ("malala".data, "Malala Yousafzai".data),
    ("greta thunberg".data, "Greta Thunberg".data),
    ("secretary-general".data, "UN Secretary-General".data),
    ("the charter".data, "UN Charter".data),
    ("un charter".data, "UN Charter".data) ]

def azUpper (c : Char) : Bool := decide (65 ≤ c.toNat) && decide (c.toNat ≤ 90)

def azLower (c : Char) : Bool := decide (97 ≤ c.toNat) && decide (c.toNat ≤ 122)

/-- `[A-Z][a-z]+`. -/
def nameWord : List RAtom := [.cls azUpper 1 1, .cls azLower 1 reBig]

/-- `(?:\s+[A-Z][a-z]+)?`. -/
def optSecondWord : RAtom := .opt ([RAtom.cls pyWs 1 reBig] ++ nameWord)

/-- The `name_patterns` of `identify_speaker` (case-sensitive). -/
def namePatterns : List (List RAtom) :=
  [ [RAtom.grpOpen] ++ nameWord ++ [.lit false [" ".data]] ++ nameWord ++
      [.grpClose, .lit false [" ".data],
       .lit false ["said".data, "wrote".data, "declared".data, "stated".data,
         "once said".data]],
    [RAtom.lit false ["President".data, "Secretary-General".data,
       "Prime Minister".data, "Pope".data, "Dr.".data, "Mr.".data, "Mrs.".data,
       "Ms.".data], .lit false [" ".data], .grpOpen] ++ nameWord ++
      [optSecondWord, .grpClose],
    [RAtom.grpOpen] ++ nameWord ++ [.lit false [" ".data]] ++ nameWord ++
      [.lit false [" ".data]] ++ nameWord ++
      [.grpClose, .lit false [" ".data], .lit false ["said".data, "wrote".data]],
    [RAtom.lit false ["words of ".data], .grpOpen] ++ nameWord ++
      [optSecondWord, .grpClose],
    [RAtom.lit false ["quoting ".data], .grpOpen] ++ nameWord ++
      [optSecondWord, .grpClose] ]

/-- The `re.findall(...); if matches: return matches[-1]` loop. -/
def identTry : List (List RAtom) → List Char → Option (List Char)
  | [], _ => none
  | p :: ps, ctx =>
    match (reFind p ctx).getLast? with
    | some m => some m.2
    | none => identTry ps ctx

/-- `identify_speaker(text, quote_pos, window=300)` (lines 103-130). -/
def identifySpeaker (text : List Char) (quotePos : Nat) : Option (List Char) :=
  let start := quotePos - 300
  let stop := min text.length (quotePos + 50)
  let context := (text.drop start).take (stop - start)
  let contextLower := lowerStr context
  match famousFigures.find? (fun kv => strContains contextLower kv.1) with
  | some kv => some kv.2
  | none => identTry namePatterns context
/-! ## The untargeted extraction and grouping pipeline
(`analyze_quotes`, lines 156-231) -/

/-- One speech row (`SELECT id, year, country_name, speaker, text`); the
text column is nullable. -/
structure Speech where
  id : Nat
  year : Int
  country : List Char
  speaker : List Char
  text : Option (List Char)
deriving DecidableEq, Repr

/-- Candidates extracted from one speech (lines 170-200): every pattern is
tried on the whole text; matches whose stripped or normalized captured
group is shorter than `MIN_QUOTE_LENGTH = 20` are discarded. -/
def speechCandidates (s : Speech) : List Candidate :=
  match s.text with
  | none => []
  | some text =>
    if text = [] then []
    else
      allPatterns.flatMap (fun pat =>
        (reFind pat text).filterMap (fun m =>
          if (pyStrip m.2).length < 20 then none
          else
            let normalized := normalizeQuote m.2
            if normalized.length < 20 then none
            else some
              { original := pyStrip m.2
                normalized := normalized
                year := s.year
                country := s.country
                speechSpeaker := s.speaker
                quotedPerson := identifySpeaker text m.1
                speechId := s.id }))

/-- All candidates of the corpus, in corpus order. -/
def allCandidates (speeches : List Speech) : List Candidate :=
  speeches.flatMap speechCandidates

/-- Stable insert for the descending sort by group size: an element is
placed before the first strictly shorter group, hence after all groups of
equal size that were already present (stability). -/
def insDesc (x : List Candidate) : List (List Candidate) → List (List Candidate)
  | [] => [x]
  | h :: t => if h.length ≤ x.length then x :: h :: t else h :: insDesc x t

/-- Stable descending sort by group size, the semantics of the stable Python
`quote_groups.sort(key=len, reverse=True)`. -/
def sortByLenDesc : List (List Candidate) → List (List Candidate)
  | [] => []
  | x :: xs => insDesc x (sortByLenDesc xs)

/-- `analyze_quotes`: extraction, greedy grouping, and the final stable sort
by descending group size (`quote_groups.sort(key=len, reverse=True)`). -/
def analyzeQuotes (speeches : List Speech) : List (List Candidate) :=
  sortByLenDesc (groupQuotes (allCandidates speeches))
theorem mem_insDesc {g x : List Candidate} : ∀ {l : List (List Candidate)},
    g ∈ insDesc x l → g = x ∨ g ∈ l := by
  intro l
  induction l with
  | nil => intro h; simp only [insDesc, List.mem_singleton] at h; exact Or.inl h
  | cons h t ih =>
    intro hg
    simp only [insDesc] at hg
    split at hg
    · rcases List.mem_cons.mp hg with h1 | h1
      · exact Or.inl h1
      · exact Or.inr h1
    · rcases List.mem_cons.mp hg with h1 | h1
      · exact Or.inr (h1 ▸ List.mem_cons_self _ _)
      · rcases ih h1 with h2 | h2
        · exact Or.inl h2
        · exact Or.inr (List.mem_cons_of_mem _ h2)

theorem mem_sortByLenDesc {g : List Candidate} : ∀ {l : List (List Candidate)},
    g ∈ sortByLenDesc l → g ∈ l := by
  intro l
  induction l with
  | nil => intro h; simp only [sortByLenDesc] at h; exact absurd h (List.not_mem_nil g)
  | cons x xs ih =>
    intro hg
    simp only [sortByLenDesc] at hg
    rcases mem_insDesc hg with h | h
    · exact h ▸ List.mem_cons_self _ _
    · exact List.mem_cons_of_mem _ (ih h)

/-- The two-speech corpus of the C4 test: both speeches quote the Charter
preamble sentence verbatim. -/
def c4Speech1 : Speech :=
  ⟨1, 1946, "France".data, "A".data,
    some "Our Charter: \"To save succeeding generations from the scourge of war\".".data⟩

def c4Speech2 : Speech :=
  ⟨2, 1965, "Ghana".data, "B".data,
    some "Our Charter: \"To save succeeding generations from the scourge of war\".".data⟩

/-- C4: singleton clusters are discarded — every group in the ranked output
has at least two members — and the two-speech corpus in which both speeches
contain the identical quoted sentence "To save succeeding generations from
the scourge of war" produces exactly one group, of occurrence count 2. -/
theorem singleton_clusters_discarded :
    (∀ (speeches : List Speech) (g : List Candidate),
      g ∈ analyzeQuotes speeches → 2 ≤ g.length) ∧
    (analyzeQuotes [c4Speech1, c4Speech2]).map List.length = [2] := by
  constructor
  · intro speeches g hg
    exact (groupPassAux_sound candSim _ _ g (mem_sortByLenDesc hg)).1
  · decide

/-- Small corpus for the C4 witness. -/
def c4wSpeech1 : Speech :=
  ⟨1, 1950, "Chile".data, "C".data, some "He said: \"abcdefghij klmnopqrst\".".data⟩

def c4wSpeech2 : Speech :=
  ⟨2, 1951, "Chile".data, "C".data, some "He said: \"abcdefghij klmnopqrst\".".data⟩

def c4wCand (id : Nat) (y : Int) : Candidate :=
  ⟨"abcdefghij klmnopqrst".data, "abcdefghij klmnopqrst".data, y, "Chile".data,
    "C".data, none, id⟩

/-- C4 (witness): the no-singleton bound applied to a concrete produced
group. -/
theorem singleton_clusters_discarded_witness :
    2 ≤ ([c4wCand 1 1950, c4wCand 2 1951] : List Candidate).length :=
  singleton_clusters_discarded.1 [c4wSpeech1, c4wSpeech2]
    [c4wCand 1 1950, c4wCand 2 1951] (by decide)
/-! ## Known-quote resolver and report attribution
(`get_quote_source`, lines 132-154; report attribution, lines 264-279 and
339-346) -/

/-- The curated `famous_quotes` table: key, canonical source, explanation,
in dict insertion order. -/
def famousQuotes : List (List Char × List Char × List Char) :=
  [ ("to save succeeding generations from the scourge of war".data,
     "UN Charter Preamble".data,
     "The opening words of the 1945 UN Charter, expressing the primary purpose of the United Nations.".data),
    ("we the peoples of the united nations".data,
     "UN Charter Preamble".data,
     "The iconic opening phrase of the UN Charter, emphasizing that the UN represents peoples, not just governments.".data),
    ("development is the new name of peace".data,
     "Pope Paul VI".data,
     "From his 1967 encyclical Populorum Progressio, quoted in his historic 1965 UN address.".data),
    ("i have a dream".data,
     "Martin Luther King Jr.".data,
     "From his famous 1963 speech at the Lincoln Memorial during the March on Washington.".data),
    ("injustice anywhere is a threat to justice everywhere".data,
     "Martin Luther King Jr.".data,
     "From his 1963 \"Letter from Birmingham Jail.\"".data),
    ("be the change you wish to see".data,
     "Mahatma Gandhi".data,
     "Often attributed to Gandhi, summarizing his philosophy of leading by example.".data),
    ("never again".data,
     "Holocaust Remembrance".data,
     "A pledge repeated after World War II to prevent future genocides.".data),
    ("peace cannot be kept by force".data,
     "Albert Einstein".data,
     "Einstein\u0027s view that lasting peace requires understanding, not military power.".data),
    ("the arc of the moral universe is long".data,
     "Martin Luther King Jr.".data,
     "Popularized by King, originally from Theodore Parker.".data),
    ("education is the most powerful weapon".data,
     "Nelson Mandela".data,
     "Mandela\u0027s belief in education as a tool for social change.".data),
    ("love is the strongest force".data,
     "Mahatma Gandhi".data,
     "Gandhi\u0027s philosophy of nonviolent resistance through love.".data),
    ("i am a nationalist, but my nationalism is humanity".data,
     "Mahatma Gandhi".data,
     "Gandhi expressing that his patriotism extends to all of humanity.".data) ]

/-- The hit test of the `get_quote_source` loop:
`known_quote in quote_norm or are_similar(quote_norm, known_quote)`. -/
def famousHit (quoteNorm : List Char) (e : List Char × List Char × List Char) : Bool :=
  strContains quoteNorm e.1 || areSimilar quoteNorm e.1

/-- `get_quote_source(quote_norm)` (lines 132-154): first curated entry that
matches, with its source and explanation; `(None, None)` on miss. -/
def getQuoteSource (quoteNorm : List Char) : Option (List Char × List Char) :=
  (famousQuotes.find? (famousHit quoteNorm)).map (fun e => e.2)

/-- Unique elements of a list in first-occurrence order:
the iteration order of `Counter(speakers)`. -/
def firstOccursAux : List (List Char) → List (List Char) → List (List Char)
  | [], _ => []
  | x :: xs, seen =>
    if x ∈ seen then firstOccursAux xs seen
    else x :: firstOccursAux xs (x :: seen)

def firstOccurs (l : List (List Char)) : List (List Char) :=
  firstOccursAux l []

/-- Best element of `u` by multiplicity in `l`, ties resolved towards the
earlier element of `u` — the semantics of
`Counter(speakers).most_common(1)[0]` (stable descending sort of counts in
first-occurrence order). -/
def bestOf (l : List (List Char)) : List (List Char) → Option (List Char × Nat)
  | [] => none
  | x :: xs =>
    match bestOf l xs with
    | none => some (x, l.count x)
    | some (bx, bc) => if bc ≤ l.count x then some (x, l.count x) else some (bx, bc)

/-- `Counter(speakers).most_common(1)[0][0]` (None when empty). -/
def mostCommon (l : List (List Char)) : Option (List Char) :=
  (bestOf l (firstOccurs l)).map Prod.fst

/-- Fallback candidate record used only to express `group[0]` on the
embedded side (the code never builds empty groups). -/
def defaultCand : Candidate := ⟨[], [], 0, [], [], none, 0⟩

/-- The attribution reported for a group (lines 264-279 and 339-346): the
curated source and explanation when `get_quote_source` hits on
the normalized field of group[0], otherwise the most frequent non-null
`quoted_person`, otherwise "Unknown". -/
def reportAttribution (group : List Candidate) : List Char × Option (List Char) :=
  match getQuoteSource (group.headD defaultCand).normalized with
  | some se => (se.1, some se.2)
  | none =>
    match mostCommon (group.filterMap (fun q => q.quotedPerson)) with
    | some s => (s, none)
    | none => ("Unknown".data, none)
theorem bestOf_eq_none {l : List (List Char)} : ∀ {u : List (List Char)},
    bestOf l u = none ↔ u = [] := by
  intro u
  cases u with
  | nil => simp [bestOf]
  | cons x xs =>
    constructor
    · intro h
      cases hrec : bestOf l xs with
      | none => simp only [bestOf, hrec] at h; exact Option.noConfusion h
      | some p =>
        obtain ⟨px, pc⟩ := p
        simp only [bestOf, hrec] at h
        split at h <;> exact Option.noConfusion h
    · intro h; exact List.noConfusion h

theorem bestOf_some {l : List (List Char)} : ∀ {u : List (List Char)} {bx : List Char} {bc : Nat},
    bestOf l u = some (bx, bc) → bc = l.count bx ∧ bx ∈ u ∧ ∀ t ∈ u, l.count t ≤ bc := by
  intro u
  induction u with
  | nil => intro bx bc h; simp [bestOf] at h
  | cons x xs ih =>
    intro bx bc h
    cases hrec : bestOf l xs with
    | none =>
      simp only [bestOf, hrec, Option.some.injEq, Prod.mk.injEq] at h
      obtain ⟨hx, hc⟩ := h
      have hxs : xs = [] := bestOf_eq_none.mp hrec
      subst hxs
      subst hx
      refine ⟨hc.symm, List.mem_cons_self _ _, ?_⟩
      intro t ht
      rcases List.mem_cons.mp ht with h2 | h2
      · subst h2; omega
      · simp at h2
    | some p =>
      obtain ⟨px, pc⟩ := p
      obtain ⟨hbc, hmem, hall⟩ := ih hrec
      by_cases hle : pc ≤ l.count x
      · simp only [bestOf, hrec, if_pos hle, Option.some.injEq, Prod.mk.injEq] at h
        obtain ⟨hx, hc⟩ := h
        subst hx
        refine ⟨hc.symm, List.mem_cons_self _ _, ?_⟩
        intro t ht
        rcases List.mem_cons.mp ht with h2 | h2
        · subst h2; omega
        · have := hall t h2
          omega
      · simp only [bestOf, hrec, if_neg hle, Option.some.injEq, Prod.mk.injEq] at h
        obtain ⟨hx, hc⟩ := h
        subst hx
        refine ⟨hc ▸ hbc, List.mem_cons_of_mem _ hmem, ?_⟩
        intro t ht
        rcases List.mem_cons.mp ht with h2 | h2
        · subst h2; omega
        · have := hall t h2
          omega
theorem mem_of_firstOccursAux : ∀ (l seen : List (List Char)) (t : List Char),
    t ∈ firstOccursAux l seen → t ∈ l := by
  intro l
  induction l with
  | nil => intro seen t h; simp [firstOccursAux] at h
  | cons x xs ih =>
    intro seen t h
    simp only [firstOccursAux] at h
    split at h
    · exact List.mem_cons_of_mem _ (ih seen t h)
    · rcases List.mem_cons.mp h with h2 | h2
      · exact h2 ▸ List.mem_cons_self _ _
      · exact List.mem_cons_of_mem _ (ih (x :: seen) t h2)

theorem firstOccursAux_covers : ∀ (l seen : List (List Char)) (t : List Char),
    t ∈ l → t ∉ seen → t ∈ firstOccursAux l seen := by
  intro l
  induction l with
  | nil => intro seen t h _; simp at h
  | cons x xs ih =>
    intro seen t ht hseen
    simp only [firstOccursAux]
    split
    · next hx =>
      rcases List.mem_cons.mp ht with h2 | h2
      · exact absurd (h2 ▸ hx) hseen
      · exact ih seen t h2 hseen
    · next hx =>
      rcases List.mem_cons.mp ht with h2 | h2
      · exact h2 ▸ List.mem_cons_self _ _
      · by_cases htx : t = x
        · exact htx ▸ List.mem_cons_self _ _
        · refine List.mem_cons_of_mem _ (ih (x :: seen) t h2 ?_)
          intro hc
          rcases List.mem_cons.mp hc with h3 | h3
          · exact htx h3
          · exact hseen h3

/-- `Counter.most_common(1)` on a nonempty list returns an element of
maximal multiplicity. -/
theorem mostCommon_spec (l : List (List Char)) (hl : l ≠ []) :
    ∃ s, mostCommon l = some s ∧ s ∈ l ∧ ∀ t ∈ l, l.count t ≤ l.count s := by
  have hfo : firstOccurs l ≠ [] := by
    cases l with
    | nil => exact absurd rfl hl
    | cons x xs =>
      intro hc
      have := firstOccursAux_covers (x :: xs) [] x (List.mem_cons_self _ _) (by simp)
      rw [show firstOccursAux (x :: xs) [] = firstOccurs (x :: xs) from rfl, hc] at this
      simp at this
  cases hb : bestOf l (firstOccurs l) with
  | none => exact absurd (bestOf_eq_none.mp hb) hfo
  | some p =>
    obtain ⟨bx, bc⟩ := p
    obtain ⟨hbc, hmem, hall⟩ := bestOf_some hb
    refine ⟨bx, by simp [mostCommon, hb], mem_of_firstOccursAux _ _ _ hmem, ?_⟩
    intro t ht
    have := hall t (firstOccursAux_covers l [] t ht (by simp))
    omega

/-- Candidate records for the C5 witness: the representative text is the
Charter preamble phrase, while a heuristic speaker is also present. -/
def c5wCand : Candidate :=
  ⟨"We the peoples of the United Nations".data,
   "we the peoples of the united nations".data, 1970, "Peru".data, "D".data,
   some "John Smith".data, 3⟩

/-- C5: for every reported group the attribution is resolved by
`get_quote_source` first: if the representative normalized text of the group
contains a curated famous-quote key or is 0.85-similar to one, the reported
attribution is that curated source together with its explanation (the first
matching table entry, overriding any heuristic speaker); otherwise it is
the most frequent non-null quoted_person of the members, or "Unknown" when
the quoted_person of every member is null. -/
theorem known_quote_override_and_fallback (q1 : Candidate) (rest : List Candidate) :
    ((∃ e ∈ famousQuotes, famousHit q1.normalized e = true) →
      ∃ e ∈ famousQuotes, famousHit q1.normalized e = true ∧
        reportAttribution (q1 :: rest) = (e.2.1, some e.2.2)) ∧
    ((∀ e ∈ famousQuotes, famousHit q1.normalized e = false) →
      (((q1 :: rest).filterMap (fun q => q.quotedPerson) = []) →
          reportAttribution (q1 :: rest) = ("Unknown".data, none)) ∧
      (((q1 :: rest).filterMap (fun q => q.quotedPerson) ≠ []) →
        ∃ s, reportAttribution (q1 :: rest) = (s, none) ∧
          s ∈ (q1 :: rest).filterMap (fun q => q.quotedPerson) ∧
          ∀ t ∈ (q1 :: rest).filterMap (fun q => q.quotedPerson),
            ((q1 :: rest).filterMap (fun q => q.quotedPerson)).count t ≤
              ((q1 :: rest).filterMap (fun q => q.quotedPerson)).count s)) := by
  constructor
  · intro hex
    have hsome : (famousQuotes.find? (famousHit q1.normalized)).isSome := by
      rw [List.find?_isSome]
      rcases hex with ⟨e, he, hhit⟩
      exact ⟨e, he, hhit⟩
    cases hfind : famousQuotes.find? (famousHit q1.normalized) with
    | none => rw [hfind] at hsome; simp at hsome
    | some e =>
      refine ⟨e, List.mem_of_find?_eq_some hfind, List.find?_some hfind, ?_⟩
      simp only [reportAttribution, getQuoteSource, List.headD_cons, hfind, Option.map_some']
  · intro hmiss
    have hfind : famousQuotes.find? (famousHit q1.normalized) = none := by
      rw [List.find?_eq_none]
      intro e he
      simp [hmiss e he]
    constructor
    · intro hsp
      simp only [reportAttribution, getQuoteSource, List.headD_cons, hfind, Option.map_none', hsp]
      rfl
    · intro hsp
      obtain ⟨s, hmc, hmem, hall⟩ := mostCommon_spec _ hsp
      refine ⟨s, ?_, hmem, hall⟩
      simp only [reportAttribution, getQuoteSource, List.headD_cons, hfind, Option.map_none', hmc]

/-- C5 (witness): a concrete group whose representative text matches the
curated table reports the curated source and explanation despite a present
heuristic speaker. -/
theorem known_quote_override_witness :
    ∃ e ∈ famousQuotes, famousHit c5wCand.normalized e = true ∧
      reportAttribution [c5wCand] = (e.2.1, some e.2.2) :=
  (known_quote_override_and_fallback c5wCand []).1 (by decide)
/-! ## Targeted extraction (extract_quotations.py, lines 22-163)

The per-row scoring and record construction is embedded with the outcomes
of the eleven attribution regexes and nine weak-indicator regexes
abstracted as oracle parameters: the invariants below hold for every
possible outcome, hence in particular for the outcomes the Python regex
engine produces.  Confidence scores are embedded in exact hundredths
(`confidence_score * 100 : Nat`): the source only ever assigns the
literals 0.3, 0.4, 0.5, 0.9, 0.95 and compares against 0.9 / 0.5 / 0 / 1,
and all of these are exact in hundredths. -/

/-- Outcome of `re.search` for one attribution pattern on the context:
no match; a match whose `match.group(quote_group)` raises `IndexError`;
or a match with its group value (`none` models a `None` group). -/
inductive AttrOutcome where
  | noMatch
  | indexError
  | matched (g : Option (List Char))
deriving DecidableEq, Repr

/-- Confidence scores (in hundredths) of the `attribution_patterns` list
(lines 82-104), in order: 0.95, 0.95, 0.9, 0.95, 0.95, 0.95, 0.95, 0.9,
0.9, 0.95, 0.9. -/
def attributionScores : List Nat := [95, 95, 90, 95, 95, 95, 95, 90, 90, 95, 90]

/-- Confidence scores (in hundredths) of the `weak_indicators` list
(lines 126-136), in order: 0.5, 0.5, 0.5, 0.4, 0.4, 0.5, 0.4, 0.4, 0.5. -/
def weakScores : List Nat := [50, 50, 50, 40, 40, 50, 40, 40, 50]

/-- The regex-outcome oracle for one row: attribution outcome and
weak-indicator flag per pattern index. -/
structure AttrOracle where
  attr : Nat → AttrOutcome
  weak : Nat → Bool

/-- Recover original casing (lines 114-116): find the lowercased extract in
the lowercased context and take the same-length slice of the original
context; on a miss the lowercased extract is kept. -/
def recase (ctxText ctxLower q : List Char) : List Char :=
  match strFind ctxLower q with
  | some i => (ctxText.drop i).take q.length
  | none => q

/-- The attribution-pattern loop (lines 107-121).  A match with a group of
length at least 10 breaks with the direct-quote flag set and the matched
score; shorter or `None` groups still overwrite `extracted_quote` and fall
through; `IndexError` leaves the state unchanged and continues. -/
def attrLoop (ctxText ctxLower : List Char) :
    List (AttrOutcome × Nat) → Option (List Char) →
    Option (List Char) × Bool × Option Nat
  | [], ext => (ext, false, none)
  | (o, sc) :: rest, ext =>
    match o with
    | .noMatch => attrLoop ctxText ctxLower rest ext
    | .indexError => attrLoop ctxText ctxLower rest ext
    | .matched g =>
      match g with
      | none => attrLoop ctxText ctxLower rest none
      | some q =>
        if 10 ≤ q.length then (some (recase ctxText ctxLower q), true, some sc)
        else attrLoop ctxText ctxLower rest (some q)

/-- The weak-indicator loop (lines 124-140): `confidence = max(confidence,
score)` for each matching indicator. -/
def weakFold : List (Bool × Nat) → Nat → Nat
  | [], c => c
  | (b, s) :: rest, c => weakFold rest (if b then max c s else c)

/-- The attribution pairs fed to the loop for a given oracle. -/
def attrPairs (orc : AttrOracle) : List (AttrOutcome × Nat) :=
  (List.range attributionScores.length).map
    (fun i => (orc.attr i, attributionScores.getD i 0))

/-- The weak-indicator pairs for a given oracle. -/
def weakPairs (orc : AttrOracle) : List (Bool × Nat) :=
  (List.range weakScores.length).map (fun i => (orc.weak i, weakScores.getD i 0))

/-- One chunk row joined with its speech
(`SELECT c.id, c.speech_id, c.text, s.year, s.country_name, s.speaker`). -/
structure ChunkRow where
  chunkId : Nat
  speechId : Nat
  text : List Char
  year : Int
  country : List Char
  speaker : List Char
deriving DecidableEq, Repr

/-- One row of the derived `quotations` table (lines 151-161); confidence
in hundredths. -/
structure Quotation where
  figureId : Nat
  speechId : Nat
  chunkId : Nat
  quoteText : List Char
  contextText : List Char
  year : Int
  country : List Char
  isDirectQuote : Bool
  confidence : Nat
deriving DecidableEq, Repr

/-- The 500-character context slice around the alias occurrence
(lines 64-67). -/
def rowContext (pattern : List Char) (row : ChunkRow) (pos : Nat) : List Char :=
  (row.text.drop (pos - 500)).take
    (min row.text.length (pos + pattern.length + 500) - (pos - 500))

/-- The attribution cascade run on the context (lines 107-121), starting
from `extracted_quote = None`. -/
def rowLoop (pattern : List Char) (row : ChunkRow) (orc : AttrOracle) (pos : Nat) :
    Option (List Char) × Bool × Option Nat :=
  attrLoop (rowContext pattern row pos) (lowerStr (rowContext pattern row pos))
    (attrPairs orc) none

/-- The confidence finally stored (base 0.3; the breaking attribution
score of the breaking pattern when one fired; otherwise the maximum over the matching
weak indicators). -/
def rowConfidence (pattern : List Char) (row : ChunkRow) (orc : AttrOracle)
    (pos : Nat) : Nat :=
  match (rowLoop pattern row orc pos).2.2 with
  | some sc => sc
  | none => weakFold (weakPairs orc) 30

/-- The quote text stored (lines 142-149): the extracted quote when truthy,
otherwise the 150-character window around the alias inside the context. -/
def rowQuoteText (pattern : List Char) (row : ChunkRow) (orc : AttrOracle)
    (pos : Nat) : List Char :=
  let contextText := rowContext pattern row pos
  let ppc : Int := match strFind (lowerStr contextText) (lowerStr pattern) with
    | some i => (i : Int)
    | none => -1
  let nameStart : Nat := (max 0 (ppc - 150)).toNat
  let nameEnd : Nat := min contextText.length (ppc + (pattern.length : Int) + 150).toNat
  let ctxSlice := (contextText.drop nameStart).take (nameEnd - nameStart)
  match (rowLoop pattern row orc pos).1 with
  | some q => if q = [] then ctxSlice else q
  | none => ctxSlice

/-- Record construction for one located alias occurrence (lines 63-161),
with the persisted fields truncated (`quote_text[:1000]`,
`context_text[:1500]`). -/
def buildQuotation (figureId : Nat) (pattern : List Char) (row : ChunkRow)
    (orc : AttrOracle) (pos : Nat) : Quotation :=
  { figureId := figureId
    speechId := row.speechId
    chunkId := row.chunkId
    quoteText := (rowQuoteText pattern row orc pos).take 1000
    contextText := (rowContext pattern row pos).take 1500
    year := row.year
    country := row.country
    isDirectQuote := (rowLoop pattern row orc pos).2.1
    confidence := rowConfidence pattern row orc pos }

/-- Processing of one row for one alias pattern inside
`extract_quotations_for_figure` (lines 48-161): rows in which the alias is
not actually found are skipped (`if pos == -1: continue`). -/
def processRow (figureId : Nat) (pattern : List Char) (row : ChunkRow)
    (orc : AttrOracle) : Option Quotation :=
  match strFind (lowerStr row.text) (lowerStr pattern) with
  | none => none
  | some pos => some (buildQuotation figureId pattern row orc pos)

theorem attrLoop_direct_score (ctxText ctxLower : List Char) :
    ∀ (ps : List (AttrOutcome × Nat)) (ext : Option (List Char)),
    ((attrLoop ctxText ctxLower ps ext).2.1 = true →
      ∃ p ∈ ps, (attrLoop ctxText ctxLower ps ext).2.2 = some p.2) ∧
    ((attrLoop ctxText ctxLower ps ext).2.1 = false →
      (attrLoop ctxText ctxLower ps ext).2.2 = none) := by
  intro ps
  induction ps with
  | nil => intro ext; simp [attrLoop]
  | cons p rest ih =>
    intro ext
    obtain ⟨o, sc⟩ := p
    cases o with
    | noMatch =>
      have hred : attrLoop ctxText ctxLower ((AttrOutcome.noMatch, sc) :: rest) ext =
          attrLoop ctxText ctxLower rest ext := rfl
      rw [hred]
      refine ⟨fun hd => ?_, (ih ext).2⟩
      rcases (ih ext).1 hd with ⟨p, hp, hps⟩
      exact ⟨p, List.mem_cons_of_mem _ hp, hps⟩
    | indexError =>
      have hred : attrLoop ctxText ctxLower ((AttrOutcome.indexError, sc) :: rest) ext =
          attrLoop ctxText ctxLower rest ext := rfl
      rw [hred]
      refine ⟨fun hd => ?_, (ih ext).2⟩
      rcases (ih ext).1 hd with ⟨p, hp, hps⟩
      exact ⟨p, List.mem_cons_of_mem _ hp, hps⟩
    | matched g =>
      cases g with
      | none =>
        have hred : attrLoop ctxText ctxLower ((AttrOutcome.matched none, sc) :: rest) ext =
            attrLoop ctxText ctxLower rest none := rfl
        rw [hred]
        refine ⟨fun hd => ?_, (ih none).2⟩
        rcases (ih none).1 hd with ⟨p, hp, hps⟩
        exact ⟨p, List.mem_cons_of_mem _ hp, hps⟩
      | some q =>
        by_cases hq : 10 ≤ q.length
        · have hred : attrLoop ctxText ctxLower ((AttrOutcome.matched (some q), sc) :: rest) ext =
              (some (recase ctxText ctxLower q), true, some sc) := by
            simp [attrLoop, hq]
          rw [hred]
          exact ⟨fun _ => ⟨(AttrOutcome.matched (some q), sc), List.mem_cons_self _ _, rfl⟩,
            fun hfalse => Bool.noConfusion hfalse⟩
        · have hred : attrLoop ctxText ctxLower ((AttrOutcome.matched (some q), sc) :: rest) ext =
              attrLoop ctxText ctxLower rest (some q) := by
            simp [attrLoop, hq]
          rw [hred]
          refine ⟨fun hd => ?_, (ih (some q)).2⟩
          rcases (ih (some q)).1 hd with ⟨p, hp, hps⟩
          exact ⟨p, List.mem_cons_of_mem _ hp, hps⟩

theorem weakFold_le (bound : Nat) : ∀ (ps : List (Bool × Nat)) (c : Nat),
    (∀ p ∈ ps, p.2 ≤ bound) → c ≤ bound → weakFold ps c ≤ bound := by
  intro ps
  induction ps with
  | nil => intro c _ hc; exact hc
  | cons p rest ih =>
    intro c hps hc
    obtain ⟨b, s⟩ := p
    simp only [weakFold]
    apply ih
    · intro p hp; exact hps p (List.mem_cons_of_mem _ hp)
    · split
      · exact max_le hc (hps (b, s) (List.mem_cons_self _ _))
      · exact hc

theorem weakFold_ge : ∀ (ps : List (Bool × Nat)) (c : Nat), c ≤ weakFold ps c := by
  intro ps
  induction ps with
  | nil => intro c; exact le_refl c
  | cons p rest ih =>
    intro c
    obtain ⟨b, s⟩ := p
    simp only [weakFold]
    refine le_trans ?_ (ih _)
    split
    · exact le_max_left _ _
    · exact le_refl c

theorem attrPairs_score_mem {orc : AttrOracle} {p : AttrOutcome × Nat}
    (h : p ∈ attrPairs orc) : 90 ≤ p.2 ∧ p.2 ≤ 100 := by
  unfold attrPairs at h
  rcases List.mem_map.mp h with ⟨i, hi, hp⟩
  have hlt : i < attributionScores.length := List.mem_range.mp hi
  have hall : ∀ j, 90 ≤ attributionScores.getD j 0 ∨ attributionScores.getD j 0 = 0 := by
    intro j
    match j with
    | 0 | 1 | 2 | 3 | 4 | 5 | 6 | 7 | 8 | 9 | 10 => left; decide
    | n + 11 => right; rfl
  have hup : ∀ j, attributionScores.getD j 0 ≤ 100 := by
    intro j
    match j with
    | 0 | 1 | 2 | 3 | 4 | 5 | 6 | 7 | 8 | 9 | 10 => decide
    | n + 11 => simp [attributionScores]
  have hnz : attributionScores.getD i 0 ≠ 0 := by
    match i, hlt with
    | 0, _ | 1, _ | 2, _ | 3, _ | 4, _ | 5, _ | 6, _ | 7, _ | 8, _ | 9, _ | 10, _ => decide
  rw [← hp]
  rcases hall i with h90 | h0
  · exact ⟨h90, hup i⟩
  · exact absurd h0 hnz

theorem weakPairs_score_le {orc : AttrOracle} {p : Bool × Nat}
    (h : p ∈ weakPairs orc) : p.2 ≤ 50 := by
  unfold weakPairs at h
  rcases List.mem_map.mp h with ⟨i, hi, hp⟩
  have : ∀ j, weakScores.getD j 0 ≤ 50 := by
    intro j
    match j with
    | 0 | 1 | 2 | 3 | 4 | 5 | 6 | 7 | 8 => decide
    | n + 9 => simp [weakScores]
  rw [← hp]
  exact this i
theorem processRow_some {figureId : Nat} {pattern : List Char} {row : ChunkRow}
    {orc : AttrOracle} {q : Quotation}
    (h : processRow figureId pattern row orc = some q) :
    ∃ pos, strFind (lowerStr row.text) (lowerStr pattern) = some pos ∧
      q = buildQuotation figureId pattern row orc pos := by
  unfold processRow at h
  cases hf : strFind (lowerStr row.text) (lowerStr pattern) with
  | none => rw [hf] at h; exact Option.noConfusion h
  | some pos =>
    rw [hf] at h
    simp only [Option.some.injEq] at h
    exact ⟨pos, rfl, h.symm⟩

/-- C6: every quotation record built by the targeted extractor has a
confidence in [0,1] (in hundredths: in [0,100]); a record created with
`is_direct_quote = True` (an explicit attribution pattern fired) has
confidence at least 0.9, and a record that is only a bare co-occurrence of
the alias with the context (no attribution pattern fired) has confidence at
most 0.5 — for every possible regex outcome. -/
theorem confidence_bounds (figureId : Nat) (pattern : List Char) (row : ChunkRow)
    (orc : AttrOracle) (q : Quotation)
    (h : processRow figureId pattern row orc = some q) :
    q.confidence ≤ 100 ∧
    (q.isDirectQuote = true → 90 ≤ q.confidence) ∧
    (q.isDirectQuote = false → q.confidence ≤ 50) := by
  obtain ⟨pos, _, hq⟩ := processRow_some h
  subst hq
  obtain ⟨hdir, hndir⟩ := attrLoop_direct_score (rowContext pattern row pos)
    (lowerStr (rowContext pattern row pos)) (attrPairs orc) none
  have hproj : (buildQuotation figureId pattern row orc pos).isDirectQuote =
      (rowLoop pattern row orc pos).2.1 := rfl
  have hconf : (buildQuotation figureId pattern row orc pos).confidence =
      rowConfidence pattern row orc pos := rfl
  have hrl : rowLoop pattern row orc pos = attrLoop (rowContext pattern row pos)
      (lowerStr (rowContext pattern row pos)) (attrPairs orc) none := rfl
  rw [hproj, hconf]
  unfold rowConfidence
  rw [hrl]
  cases hsc : (attrLoop (rowContext pattern row pos)
      (lowerStr (rowContext pattern row pos)) (attrPairs orc) none).2.2 with
  | some sc =>
    have hd : (attrLoop (rowContext pattern row pos)
        (lowerStr (rowContext pattern row pos)) (attrPairs orc) none).2.1 = true := by
      cases hb : (attrLoop (rowContext pattern row pos)
          (lowerStr (rowContext pattern row pos)) (attrPairs orc) none).2.1 with
      | true => rfl
      | false => rw [hndir hb] at hsc; exact Option.noConfusion hsc
    rcases hdir hd with ⟨p, hp, hps⟩
    rw [hsc] at hps
    obtain ⟨hlo, hhi⟩ := attrPairs_score_mem hp
    have hscp : sc = p.2 := by injection hps
    subst hscp
    simp only [hsc]
    exact ⟨hhi, fun _ => hlo, fun hfalse => by rw [hd] at hfalse; exact Bool.noConfusion hfalse⟩
  | none =>
    have hle : weakFold (weakPairs orc) 30 ≤ 50 :=
      weakFold_le 50 (weakPairs orc) 30 (fun p hp => weakPairs_score_le hp) (by omega)
    simp only [hsc]
    refine ⟨by omega, ?_, fun _ => hle⟩
    intro hd
    rcases hdir hd with ⟨p, _, hps⟩
    rw [hsc] at hps
    exact Option.noConfusion hps

/-- Concrete row and oracle for the extractor witnesses: the first
attribution pattern (`gandhi said "…"`) fires with a 20-character group, as
the regex engine does on this text. -/
def c6wRow : ChunkRow :=
  ⟨10, 5, "Gandhi said \"an example quotation\" here.".data, 1950, "India".data, "S".data⟩

def c6wOrc : AttrOracle :=
  ⟨fun i => if i = 0 then AttrOutcome.matched (some "an example quotation".data)
    else AttrOutcome.noMatch, fun _ => false⟩

def emptyQuotation : Quotation := ⟨0, 0, 0, [], [], 0, [], false, 0⟩

def c6wQuote : Quotation := (processRow 7 "Gandhi".data c6wRow c6wOrc).getD emptyQuotation

/-- C6 (witness): the direct-quote lower bound at the concrete row. -/
theorem confidence_bounds_witness : 90 ≤ c6wQuote.confidence :=
  (confidence_bounds 7 "Gandhi".data c6wRow c6wOrc c6wQuote (by decide)).2.1 (by decide)

/-- C10: every quotation record built by the targeted extractor carries a
quote_text of at most 1000 characters and a context_text of at most 1500
characters, whatever the matched span and context were. -/
theorem truncation_bounds (figureId : Nat) (pattern : List Char) (row : ChunkRow)
    (orc : AttrOracle) (q : Quotation)
    (h : processRow figureId pattern row orc = some q) :
    q.quoteText.length ≤ 1000 ∧ q.contextText.length ≤ 1500 := by
  obtain ⟨pos, _, hq⟩ := processRow_some h
  subst hq
  constructor
  · have : (buildQuotation figureId pattern row orc pos).quoteText =
        (rowQuoteText pattern row orc pos).take 1000 := rfl
    rw [this, List.length_take]
    exact Nat.min_le_left _ _
  · have : (buildQuotation figureId pattern row orc pos).contextText =
        (rowContext pattern row pos).take 1500 := rfl
    rw [this, List.length_take]
    exact Nat.min_le_left _ _

/-- C10 (witness): the truncation bounds at the concrete row. -/
theorem truncation_bounds_witness :
    c6wQuote.quoteText.length ≤ 1000 ∧ c6wQuote.contextText.length ≤ 1500 :=
  truncation_bounds 7 "Gandhi".data c6wRow c6wOrc c6wQuote (by decide)

/-- When the cascade broke with a direct quote, the stored extract is the
recased form of a group of length at least 10. -/
theorem attrLoop_direct_ext (ctxText ctxLower : List Char) :
    ∀ (ps : List (AttrOutcome × Nat)) (ext : Option (List Char)),
    (attrLoop ctxText ctxLower ps ext).2.1 = true →
    ∃ q, 10 ≤ q.length ∧
      (attrLoop ctxText ctxLower ps ext).1 = some (recase ctxText ctxLower q) := by
  intro ps
  induction ps with
  | nil => intro ext h; simp [attrLoop] at h
  | cons p rest ih =>
    intro ext
    obtain ⟨o, sc⟩ := p
    cases o with
    | noMatch => exact ih ext
    | indexError => exact ih ext
    | matched g =>
      cases g with
      | none => exact ih none
      | some q =>
        by_cases hq : 10 ≤ q.length
        · intro _
          have hred : attrLoop ctxText ctxLower ((AttrOutcome.matched (some q), sc) :: rest) ext =
              (some (recase ctxText ctxLower q), true, some sc) := by
            simp [attrLoop, hq]
          rw [hred]
          exact ⟨q, hq, rfl⟩
        · have hred : attrLoop ctxText ctxLower ((AttrOutcome.matched (some q), sc) :: rest) ext =
              attrLoop ctxText ctxLower rest (some q) := by
            simp [attrLoop, hq]
          rw [hred]
          exact ih (some q)

/-- C7 (counterexample input): the alias `Gandhi`, a row whose text carries
the 12-character quoted span `non-violence`, and the outcome of attribution
pattern 0 (`gandhi\s+(once\s+)?said[,:.;]?\s*['…](…{10,500})['…]`), which
matches this text with the 12-character group. -/
def c7Row : ChunkRow :=
  ⟨10, 5, "Gandhi said \u0027non-violence\u0027 to crowds.".data, 1950, "India".data, "S".data⟩

def c7Orc : AttrOracle :=
  ⟨fun i => if i = 0 then AttrOutcome.matched (some "non-violence".data)
    else AttrOutcome.noMatch, fun _ => false⟩

def c7Quote : Quotation := (processRow 7 "Gandhi".data c7Row c7Orc).getD emptyQuotation

/-- C7 (counterexample): the targeted extractor creates a direct-quote
candidate whose quote text has only 12 characters, below 20 both before and
after normalization. -/
theorem targeted_quote_below_min_length :
    processRow 7 "Gandhi".data c7Row c7Orc = some c7Quote ∧
    c7Quote.isDirectQuote = true ∧
    c7Quote.quoteText.length < 20 ∧
    (normalizeQuote c7Quote.quoteText).length < 20 := by
  decide

/-- C7 (amended): the untargeted extractor (`analyze_quotes`) discards every
span shorter than 20 characters after normalization, so all its candidates
satisfy the bound; the targeted extractor (`extract_quotations_for_figure`)
enforces a 10-character minimum only on the captured group at match time
(a direct-quote record always comes from a captured group of length at
least 10, whose recased slice of the context is what gets stored and
truncated), and no minimum at all on context-fallback records -- the stored
`quote_text` itself carries no guaranteed minimum, since the recasing slice
indexes `context_text` at positions found in `context_lower` and can clamp
when lowercasing changes lengths. -/
theorem min_quote_length (speeches : List Speech) (c : Candidate)
    (hc : c ∈ allCandidates speeches) (figureId : Nat) (pattern : List Char)
    (row : ChunkRow) (orc : AttrOracle) (q : Quotation)
    (hq : processRow figureId pattern row orc = some q) :
    20 ≤ c.normalized.length ∧
    (q.isDirectQuote = true → ∃ pos g,
      strFind (lowerStr row.text) (lowerStr pattern) = some pos ∧
      10 ≤ g.length ∧
      (rowLoop pattern row orc pos).1 = some (recase (rowContext pattern row pos)
        (lowerStr (rowContext pattern row pos)) g) ∧
      q.quoteText = (rowQuoteText pattern row orc pos).take 1000) := by
  constructor
  · rcases List.mem_flatMap.mp hc with ⟨s, _, hcs⟩
    cases hst : s.text with
    | none => simp only [speechCandidates, hst] at hcs; simp at hcs
    | some text =>
      simp only [speechCandidates, hst] at hcs
      by_cases htext : text = []
      · rw [if_pos htext] at hcs; simp at hcs
      · rw [if_neg htext] at hcs
        rcases List.mem_flatMap.mp hcs with ⟨pat, _, hcp⟩
        rcases List.mem_filterMap.mp hcp with ⟨m, _, hm⟩
        by_cases h1 : (pyStrip m.2).length < 20
        · rw [if_pos h1] at hm; exact Option.noConfusion hm
        · rw [if_neg h1] at hm
          by_cases h2 : (normalizeQuote m.2).length < 20
          · rw [if_pos h2] at hm; exact Option.noConfusion hm
          · rw [if_neg h2] at hm
            simp only [Option.some.injEq] at hm
            rw [← hm]
            show 20 ≤ (normalizeQuote m.2).length
            omega
  · intro hd
    obtain ⟨pos, hpos, hq2⟩ := processRow_some hq
    subst hq2
    have hproj : (buildQuotation figureId pattern row orc pos).isDirectQuote =
        (rowLoop pattern row orc pos).2.1 := rfl
    rw [hproj] at hd
    rcases attrLoop_direct_ext (rowContext pattern row pos)
      (lowerStr (rowContext pattern row pos)) (attrPairs orc) none hd with ⟨g, hglen, hext⟩
    exact ⟨pos, g, hpos, hglen, hext, rfl⟩

/-- C7 (witness): the amended bounds at concrete inputs for both paths. -/
theorem min_quote_length_witness :
    20 ≤ (c4wCand 1 1950).normalized.length ∧
    (c6wQuote.isDirectQuote = true → ∃ pos g,
      strFind (lowerStr c6wRow.text) (lowerStr "Gandhi".data) = some pos ∧
      10 ≤ g.length ∧
      (rowLoop "Gandhi".data c6wRow c6wOrc pos).1 =
        some (recase (rowContext "Gandhi".data c6wRow pos)
          (lowerStr (rowContext "Gandhi".data c6wRow pos)) g) ∧
      c6wQuote.quoteText = (rowQuoteText "Gandhi".data c6wRow c6wOrc pos).take 1000) :=
  min_quote_length [c4wSpeech1] (c4wCand 1 1950) (by decide)
    7 "Gandhi".data c6wRow c6wOrc c6wQuote (by decide)
/-- Pointwise relation lifted to maps over the same index list. -/
theorem forall2_map_of_pointwise {α β : Type} {rel : α → β → Prop} {f1 : Nat → α}
    {f2 : Nat → β} (h : ∀ n, rel (f1 n) (f2 n)) :
    ∀ r : List Nat, List.Forall₂ rel (r.map f1) (r.map f2) := by
  intro r
  induction r with
  | nil => exact List.Forall₂.nil
  | cons n ns ih => exact List.Forall₂.cons (h n) ih

/-- The attribution loop does not distinguish a pattern whose capture raised
`IndexError` from a pattern that did not match: both fall through to the
next pattern with unchanged state. -/
theorem attrLoop_congr (ctxText ctxLower : List Char) :
    ∀ {ps qs : List (AttrOutcome × Nat)},
    List.Forall₂ (fun p q => p.2 = q.2 ∧
      (p.1 = q.1 ∨ (p.1 = AttrOutcome.indexError ∧ q.1 = AttrOutcome.noMatch))) ps qs →
    ∀ (ext : Option (List Char)),
    attrLoop ctxText ctxLower ps ext = attrLoop ctxText ctxLower qs ext := by
  intro ps qs h
  induction h with
  | nil => intro ext; rfl
  | @cons p q ps' qs' hpq htail ih =>
    intro ext
    obtain ⟨o1, sc1⟩ := p
    obtain ⟨o2, sc2⟩ := q
    obtain ⟨hsc, hor⟩ := hpq
    simp only at hsc
    subst hsc
    rcases hor with heq | ⟨hie, hnm⟩
    · simp only at heq
      subst heq
      cases o1 with
      | noMatch =>
        show attrLoop ctxText ctxLower ps' ext = attrLoop ctxText ctxLower qs' ext
        exact ih ext
      | indexError =>
        show attrLoop ctxText ctxLower ps' ext = attrLoop ctxText ctxLower qs' ext
        exact ih ext
      | matched g =>
        cases g with
        | none =>
          show attrLoop ctxText ctxLower ps' none = attrLoop ctxText ctxLower qs' none
          exact ih none
        | some qq =>
          by_cases hq : 10 ≤ qq.length
          · simp [attrLoop, hq]
          · simp only [attrLoop, if_neg hq]
            exact ih (some qq)
    · simp only at hie hnm
      subst hie
      subst hnm
      show attrLoop ctxText ctxLower ps' ext = attrLoop ctxText ctxLower qs' ext
      exact ih ext

/-- C9: soft failures are isolated.  A speech whose text is NULL or empty
contributes zero candidates and its removal leaves the extracted candidate
stream unchanged (the run continues); and in the targeted extractor a
capture-group-out-of-range failure (`IndexError`) on one attribution
pattern is handled exactly like a non-match of that pattern: the row is
still processed to completion with an identical resulting record. -/
theorem soft_failure_isolation :
    (∀ s : Speech, (s.text = none ∨ s.text = some []) →
      speechCandidates s = [] ∧
      ∀ pre post : List Speech,
        allCandidates (pre ++ s :: post) = allCandidates (pre ++ post)) ∧
    (∀ (figureId : Nat) (pattern : List Char) (row : ChunkRow) (orc : AttrOracle)
      (i : Nat),
      processRow figureId pattern row
        ⟨fun j => if j = i then AttrOutcome.indexError else orc.attr j, orc.weak⟩ =
      processRow figureId pattern row
        ⟨fun j => if j = i then AttrOutcome.noMatch else orc.attr j, orc.weak⟩) := by
  constructor
  · intro s hs
    have hsc : speechCandidates s = [] := by
      rcases hs with h | h <;> simp [speechCandidates, h]
    refine ⟨hsc, ?_⟩
    intro pre post
    simp [allCandidates, List.flatMap_append, List.flatMap_cons, hsc]
  · intro figureId pattern row orc i
    have hrel : List.Forall₂ (fun p q => p.2 = q.2 ∧
        (p.1 = q.1 ∨ (p.1 = AttrOutcome.indexError ∧ q.1 = AttrOutcome.noMatch)))
        (attrPairs ⟨fun j => if j = i then AttrOutcome.indexError else orc.attr j, orc.weak⟩)
        (attrPairs ⟨fun j => if j = i then AttrOutcome.noMatch else orc.attr j, orc.weak⟩) := by
      apply forall2_map_of_pointwise
      intro n
      refine ⟨rfl, ?_⟩
      by_cases hn : n = i
      · right
        simp [hn]
      · left
        simp [hn]
    have hloop : ∀ pos, rowLoop pattern row
        ⟨fun j => if j = i then AttrOutcome.indexError else orc.attr j, orc.weak⟩ pos =
        rowLoop pattern row
        ⟨fun j => if j = i then AttrOutcome.noMatch else orc.attr j, orc.weak⟩ pos :=
      fun pos => attrLoop_congr _ _ hrel none
    have hbq : ∀ pos, buildQuotation figureId pattern row
        ⟨fun j => if j = i then AttrOutcome.indexError else orc.attr j, orc.weak⟩ pos =
        buildQuotation figureId pattern row
        ⟨fun j => if j = i then AttrOutcome.noMatch else orc.attr j, orc.weak⟩ pos := by
      intro pos
      simp only [buildQuotation, rowConfidence, rowQuoteText, hloop pos]
      rfl
    unfold processRow
    cases strFind (lowerStr row.text) (lowerStr pattern) with
    | none => rfl
    | some pos => exact congrArg some (hbq pos)

/-- C9 (witness): the isolation facts at a concrete null-text speech and a
concrete row with an `IndexError` outcome. -/
theorem soft_failure_isolation_witness :
    speechCandidates ⟨9, 2000, "X".data, "Y".data, none⟩ = [] ∧
    allCandidates ([c4wSpeech1] ++ ⟨9, 2000, "X".data, "Y".data, none⟩ :: []) =
      allCandidates ([c4wSpeech1] ++ []) :=
  ⟨(soft_failure_isolation.1 ⟨9, 2000, "X".data, "Y".data, none⟩ (Or.inl rfl)).1,
   (soft_failure_isolation.1 ⟨9, 2000, "X".data, "Y".data, none⟩ (Or.inl rfl)).2
     [c4wSpeech1] []⟩
/-! ## Deduplication (`deduplicate_quotations`, extract_quotations.py
lines 165-176) -/

/-- The dedup key (speech_id, quote_text[:100]): the raw quote
text, not a normalized form (the extractor has no normalizer). -/
def dedupKey (q : Quotation) : Nat × List Char :=
  (q.speechId, q.quoteText.take 100)

/-- The `seen`-set loop of `deduplicate_quotations`. -/
def dedupAux : List Quotation → List (Nat × List Char) → List Quotation
  | [], _ => []
  | q :: rest, seen =>
    if dedupKey q ∈ seen then dedupAux rest seen
    else q :: dedupAux rest (dedupKey q :: seen)

/-- `deduplicate_quotations(quotations)`. -/
def deduplicateQuotations (qs : List Quotation) : List Quotation :=
  dedupAux qs []

theorem dedupAux_sublist : ∀ (qs : List Quotation) (seen : List (Nat × List Char)),
    (dedupAux qs seen).Sublist qs := by
  intro qs
  induction qs with
  | nil => intro seen; exact List.Sublist.refl []
  | cons q rest ih =>
    intro seen
    simp only [dedupAux]
    split
    · exact (ih seen).cons q
    · exact (ih (dedupKey q :: seen)).cons₂ q

theorem dedupAux_first : ∀ (qs : List Quotation) (seen : List (Nat × List Char))
    (q : Quotation), q ∈ dedupAux qs seen →
    dedupKey q ∉ seen ∧
    qs.find? (fun r => decide (dedupKey r = dedupKey q)) = some q := by
  intro qs
  induction qs with
  | nil => intro seen q h; simp [dedupAux] at h
  | cons p rest ih =>
    intro seen q h
    simp only [dedupAux] at h
    split at h
    · next hk =>
      obtain ⟨hns, hfind⟩ := ih seen q h
      refine ⟨hns, ?_⟩
      have hne : dedupKey p ≠ dedupKey q := by
        intro he
        exact hns (he ▸ hk)
      simp only [List.find?]
      rw [show (decide (dedupKey p = dedupKey q)) = false by simpa using hne]
      exact hfind
    · next hk =>
      rcases List.mem_cons.mp h with h2 | h2
      · subst h2
        refine ⟨hk, ?_⟩
        simp [List.find?]
      · obtain ⟨hns, hfind⟩ := ih (dedupKey p :: seen) q h2
        have hne : dedupKey p ≠ dedupKey q := by
          intro he
          exact hns (he ▸ List.mem_cons_self _ _)
        refine ⟨fun hc => hns (List.mem_cons_of_mem _ hc), ?_⟩
        simp only [List.find?]
        rw [show (decide (dedupKey p = dedupKey q)) = false by simpa using hne]
        exact hfind

theorem dedupAux_covers : ∀ (qs : List Quotation) (seen : List (Nat × List Char))
    (q : Quotation), q ∈ qs → dedupKey q ∉ seen →
    ∃ r ∈ dedupAux qs seen, dedupKey r = dedupKey q := by
  intro qs
  induction qs with
  | nil => intro seen q h _; simp at h
  | cons p rest ih =>
    intro seen q hq hns
    simp only [dedupAux]
    split
    · next hk =>
      rcases List.mem_cons.mp hq with h2 | h2
      · exact absurd (h2 ▸ hk) hns
      · exact ih seen q h2 hns
    · next hk =>
      by_cases hpq : dedupKey p = dedupKey q
      · exact ⟨p, List.mem_cons_self _ _, hpq⟩
      · rcases List.mem_cons.mp hq with h2 | h2
        · exact absurd (congrArg dedupKey h2.symm) hpq
        · have hns2 : dedupKey q ∉ dedupKey p :: seen := by
            intro hc
            rcases List.mem_cons.mp hc with h3 | h3
            · exact hpq h3.symm
            · exact hns h3
          rcases ih (dedupKey p :: seen) q h2 hns2 with ⟨r, hr, hrk⟩
          exact ⟨r, List.mem_cons_of_mem _ hr, hrk⟩

theorem dedupAux_pairwise : ∀ (qs : List Quotation) (seen : List (Nat × List Char)),
    (dedupAux qs seen).Pairwise (fun a b => dedupKey a ≠ dedupKey b) := by
  intro qs
  induction qs with
  | nil => intro seen; simp [dedupAux]
  | cons p rest ih =>
    intro seen
    simp only [dedupAux]
    split
    · exact ih seen
    · refine List.Pairwise.cons ?_ (ih (dedupKey p :: seen))
      intro b hb
      have := (dedupAux_first rest (dedupKey p :: seen) b hb).1
      intro he
      exact this (he ▸ List.mem_cons_self _ _)

/-- C8 (counterexample): two records in the same speech whose quote texts
differ only in case — identical normalized text, hence identical
`(speech_id, normalized_text[:100])` key — are BOTH kept by
`deduplicate_quotations`: the key uses the raw `quote_text[:100]`, not a
normalized form. -/
theorem dedup_key_uses_raw_text :
    (⟨1, 4, 2, "ABCDEFGHIJ KLMNOPQRST".data, [], 1980, "Z".data, false, 30⟩ :
      Quotation).speechId =
      (⟨1, 4, 2, "abcdefghij klmnopqrst".data, [], 1980, "Z".data, false, 30⟩ :
      Quotation).speechId ∧
    (normalizeQuote "ABCDEFGHIJ KLMNOPQRST".data).take 100 =
      (normalizeQuote "abcdefghij klmnopqrst".data).take 100 ∧
    deduplicateQuotations
      [⟨1, 4, 2, "ABCDEFGHIJ KLMNOPQRST".data, [], 1980, "Z".data, false, 30⟩,
       ⟨1, 4, 2, "abcdefghij klmnopqrst".data, [], 1980, "Z".data, false, 30⟩] =
      [⟨1, 4, 2, "ABCDEFGHIJ KLMNOPQRST".data, [], 1980, "Z".data, false, 30⟩,
       ⟨1, 4, 2, "abcdefghij klmnopqrst".data, [], 1980, "Z".data, false, 30⟩] := by
  decide

/-- C8 (amended): `deduplicate_quotations` keeps, for each distinct
`(speech_id, quote_text[:100])` key — the RAW quote text, not the
normalized text — exactly the first record of the list with that key,
removing all later records with the same key; the dedup runs on the
candidate list of the extractor before the rows are persisted (the targeted
extractor performs no fuzzy grouping). -/
theorem dedup_keeps_first_per_raw_key (qs : List Quotation) :
    (deduplicateQuotations qs).Sublist qs ∧
    (deduplicateQuotations qs).Pairwise (fun a b => dedupKey a ≠ dedupKey b) ∧
    (∀ q ∈ deduplicateQuotations qs,
      qs.find? (fun r => decide (dedupKey r = dedupKey q)) = some q) ∧
    (∀ q ∈ qs, ∃ r ∈ deduplicateQuotations qs, dedupKey r = dedupKey q) :=
  ⟨dedupAux_sublist qs [],
   dedupAux_pairwise qs [],
   fun q hq => (dedupAux_first qs [] q hq).2,
   fun q hq => dedupAux_covers qs [] q hq (by simp)⟩

/-- C8 (witness): an exact duplicate is collapsed to its first occurrence. -/
theorem dedup_keeps_first_witness :
    [(⟨1, 4, 2, "x".data, [], 1980, "Z".data, false, 30⟩ : Quotation),
     ⟨2, 4, 2, "x".data, [], 1981, "Z".data, false, 30⟩].find?
      (fun r => decide (dedupKey r =
        dedupKey (⟨1, 4, 2, "x".data, [], 1980, "Z".data, false, 30⟩ : Quotation))) =
      some ⟨1, 4, 2, "x".data, [], 1980, "Z".data, false, 30⟩ :=
  (dedup_keeps_first_per_raw_key
    [⟨1, 4, 2, "x".data, [], 1980, "Z".data, false, 30⟩,
     ⟨2, 4, 2, "x".data, [], 1981, "Z".data, false, 30⟩]).2.2.1
    ⟨1, 4, 2, "x".data, [], 1980, "Z".data, false, 30⟩ (by decide)
